import Mathlib

/-!
Verification of the dependency analyzer in `scripts/check_deps.py`.

The Python program is shallowly embedded: the filesystem a run observes is a
value of `FsModel` (the directory walk, the readable file contents, the
include-search directories and the set of extant paths), dictionaries are
insertion-ordered association lists, Python sets that are only mutated by
`add` are insertion-ordered duplicate-free lists, and the recursive DFS is
given explicit fuel (the program itself has no fuel; every theorem about a
`none`-result is proved under a fuel bound that the chosen top-level fuel
satisfies -- see `fcdFuel`).
-/

namespace CheckDeps

/-! ### String helpers (Python `str.strip`, `in`, `endswith`) -/

/-- The characters Python's `str.strip()` and `\s` treat as whitespace. -/
def isPySpace (c : Char) : Bool :=
  c = ' ' || c = '\t' || c = '\n' || c = '\r' || c = '\x0b' || c = '\x0c'

/-- Python `line.strip()` on a list of characters. -/
def pyStrip (l : List Char) : List Char :=
  ((l.dropWhile isPySpace).reverse.dropWhile isPySpace).reverse

/-- If `p` is an initial segment of `s`, return the rest of `s`. -/
def dropStart : List Char → List Char → Option (List Char)
  | [], l => some l
  | _ :: _, [] => none
  | p :: ps, c :: cs => if p = c then dropStart ps cs else none

/-- Whether `p` occurs as a contiguous segment of `s` (Python `p in s`). -/
def hasSeg (p : List Char) : List Char → Bool
  | [] => (dropStart p []).isSome
  | c :: t => (dropStart p (c :: t)).isSome || hasSeg p t

/-- Python `sub in s` for strings. -/
def strContains (s sub : String) : Bool := hasSeg sub.data s.data

/-- Python `s.endswith(suf)`. -/
def strEndsWith (s suf : String) : Bool := suf.data.isSuffixOf s.data

/-- Python `s.endswith((suf1, suf2, ...))`. -/
def strEndsAny (s : String) (sufs : List String) : Bool := sufs.any (strEndsWith s)

/-! ### Include extraction (`DependencyAnalyzer.parse_includes`)

The regex `#include\s*[<"]([^>"]+)[>"]` applied with `re.match` to the
stripped line: a literal `#include`, then whitespace, then one opening
delimiter, then a nonempty run of characters that are neither `>` nor `"`,
then one closing delimiter (which need not match the opening one). -/

/-- One character is a closing delimiter of the include regex. -/
def isIncDelim (c : Char) : Bool := c = '>' || c = '"'

/-- The `[<"](...)` part of the regex: an opening delimiter, then the
greedy nonempty run of non-delimiters, then some closing delimiter. -/
def matchOpen : List Char → Option (List Char)
  | [] => none
  | c :: r3 =>
    if c = '<' ∨ c = '"' then
      match r3.takeWhile (fun d => !isIncDelim d), r3.dropWhile (fun d => !isIncDelim d) with
      | [], _ => none
      | _, [] => none
      | nm :: nms, _ :: _ => some (nm :: nms)
    else none

/-- The `\s*[<"](...)` part: greedy whitespace, then the delimited name. -/
def matchRest (r1 : List Char) : Option (List Char) :=
  matchOpen (r1.dropWhile isPySpace)

/-- The match of the include regex against one (unstripped) line, returning
the captured group. -/
def matchIncludeL (line : List Char) : Option (List Char) :=
  match dropStart "#include".data (pyStrip line) with
  | none => none
  | some r1 => matchRest r1

/-- String-level wrapper of `matchIncludeL`. -/
def matchInclude (line : String) : Option String :=
  (matchIncludeL line.data).map String.mk

/-- Adding an element to the insertion-ordered model of a Python set. -/
def addIncl (acc : List String) (x : String) : List String :=
  if x ∈ acc then acc else acc ++ [x]

/-- One line's contribution to the include set. -/
def plStep (acc : List String) (line : String) : List String :=
  match matchInclude line with
  | some name => addIncl acc name
  | none => acc

/-- The set of include targets collected from the lines of a file. -/
def parseLines (lines : List String) : List String :=
  lines.foldl plStep []

/-- `parse_includes`: `none` content models an unreadable file (the `except`
branch). The Boolean records whether the warning was printed. -/
def parse_includes (content : Option (List String)) : List String × Bool :=
  match content with
  | none => ([], true)
  | some lines => (parseLines lines, false)

/-! ### File discovery (`DependencyAnalyzer.find_source_files`) -/

/-- The extensions accepted by discovery. -/
def srcExts : List String := [".c", ".h", ".S"]

/-- The allow-list applied below a `guest` directory. -/
def guestAllow : List String := ["test_guest.S", "guest_manifests.c", "guest_manifest.h"]

/-- The root-exclusion test: `'clib' in root or any(subdir in root for ...)`. -/
def excludedRoot (root : String) : Bool :=
  strContains root "clib" || strContains root "guest/linux" ||
    strContains root "guest/nimbos" || strContains root "guest/testos"

/-- `os.path.relpath(os.path.join(root, file))` for the relative roots the
walk produces; the walk of the source root `.` reports `.` itself. -/
def pathJoin (root f : String) : String :=
  if root = "." then f else root ++ "/" ++ f

/-- Insertion into a Python dict modelled as an association list:
an existing key is updated in place, a new key is appended. -/
def dictInsert (m : List (String × String)) (k v : String) : List (String × String) :=
  match m with
  | [] => [(k, v)]
  | (a, b) :: rest => if a = k then (a, v) :: rest else (a, b) :: dictInsert rest k v

/-- The body of the inner `for file in files` loop of `find_source_files`. -/
def addWalkFile (root : String) (m : List (String × String)) (f : String) :
    List (String × String) :=
  if strEndsAny f srcExts then
    let rel := pathJoin root f
    if strContains root "guest" then
      if f ∈ guestAllow then dictInsert m f rel else m
    else if strContains root "app" && f = "syscall.S" then m
    else dictInsert m f rel
  else m

/-- One iteration of the `for root, dirs, files in os.walk(...)` loop: an
excluded root is skipped whole, otherwise its plain files are processed. -/
def walkStep (m : List (String × String)) (e : String × List String) :
    List (String × String) :=
  if excludedRoot e.1 then m else e.2.foldl (addWalkFile e.1) m

/-- `find_source_files` over the modelled `os.walk` output (one entry per
visited directory: its path and the plain files it holds). -/
def find_source_files (walk : List (String × List String)) : List (String × String) :=
  walk.foldl walkStep []

/-! ### The filesystem model and include resolution -/

/-- What one run of the analyzer can observe of the filesystem. -/
structure FsModel where
  /-- The concatenated `os.walk` output over the configured source roots. -/
  walk : List (String × List String)
  /-- The readable text of each path, as lines; `none` (or absence) models a
  file whose `open`/read raises. -/
  contents : List (String × Option (List String))
  /-- The configured include-search directories. -/
  includeDirs : List String
  /-- The paths for which `os.path.exists` is true. -/
  extant : List String

/-- Reading a path in the model. -/
def contentOf (m : FsModel) (p : String) : Option (List String) :=
  (m.contents.lookup p).join

/-- The loop over `include_dirs` inside `resolve_include`. -/
def searchDirs (m : FsModel) (name : String) : List String → Option String
  | [] => none
  | d :: rest =>
    let full := pathJoin d name
    if full ∈ m.extant then some full else searchDirs m name rest

/-- `resolve_include`: the filename map first, then the search directories;
the system-header test and the final fall-through both return `None`. -/
def resolve_include (files : List (String × String)) (m : FsModel) (name : String) :
    Option String :=
  match files.lookup name with
  | some p => some p
  | none => searchDirs m name m.includeDirs

/-! ### Graph building (`DependencyAnalyzer.build_dependency_graph`) -/

/-- A `defaultdict(set)` of edges: insertion-ordered keys, insertion-ordered
duplicate-free target lists. -/
abbrev AdjList := List (String × List String)

/-- Reading a `defaultdict(set)`: a missing key reads as the empty set. -/
def lookupD (g : AdjList) (k : String) : List String := (g.lookup k).getD []

/-- `g[k].add(v)` on the association-list model. -/
def adjAdd (g : AdjList) (k v : String) : AdjList :=
  match g with
  | [] => [(k, [v])]
  | (a, vs) :: rest =>
    if a = k then (a, if v ∈ vs then vs else vs ++ [v]) :: rest
    else (a, vs) :: adjAdd rest k v

/-- The two mutable maps of the analyzer. -/
structure GState where
  dependencies : AdjList
  reverse_deps : AdjList

/-- One edge insertion of the builder: the forward edge and, immediately,
the reverse edge. -/
def addEdge (st : GState) (e : String × String) : GState :=
  { dependencies := adjAdd st.dependencies e.1 e.2
    reverse_deps := adjAdd st.reverse_deps e.2 e.1 }

/-- The `(file_path, resolved)` pairs one discovered file contributes: files
not ending in `.c`/`.S` are skipped, includes are resolved, and unresolved
or self-referring results are dropped. -/
def fileEvents (m : FsModel) (files : List (String × String)) (kv : String × String) :
    List (String × String) :=
  if strEndsAny kv.2 [".c", ".S"] then
    (parse_includes (contentOf m kv.2)).1.filterMap (fun inc =>
      match resolve_include files m inc with
      | some r => if r ≠ kv.2 then some (kv.2, r) else none
      | none => none)
  else []

/-- All edge insertions of `build_dependency_graph`, in program order. -/
def buildEvents (m : FsModel) : List (String × String) :=
  (find_source_files m.walk).flatMap (fileEvents m (find_source_files m.walk))

/-- Replaying a list of insertions from the empty state. -/
def applyEvents (l : List (String × String)) : GState :=
  l.foldl addEdge ⟨[], []⟩

/-- `build_dependency_graph` (after its internal `find_source_files`). -/
def build_dependency_graph (m : FsModel) : GState := applyEvents (buildEvents m)

/-! ### The graph relations the claims speak about -/

/-- `Edge g u v`: the forward mapping records that `u` includes `v`. -/
def Edge (g : AdjList) (u v : String) : Prop := v ∈ lookupD g u

instance (g : AdjList) (u v : String) : Decidable (Edge g u v) := by
  unfold Edge; infer_instance

/-- Reachability along forward edges. -/
def Reach (g : AdjList) : String → String → Prop := Relation.ReflTransGen (Edge g)

/-- `n` lies on a cycle: some edge leaves `n` and comes back to it. -/
def CycAt (g : AdjList) (n : String) : Prop :=
  ∃ v, Edge g n v ∧ Reach g v n

/-- The graph has no cycle at all. -/
def Acyclic (g : AdjList) : Prop := ∀ n, ¬ CycAt g n

/-! ### Cycle detection (`DependencyAnalyzer.find_circular_dependencies`)

The recursive Python `dfs` mutates `visited` globally and restores `path`
and `rec_stack` on every `None` return, so the embedding threads `visited`
through and lets the caller keep its own `path`/`rec_stack`. Fuel is
decremented on every call; `fcdFuel` is large enough that it never runs out
(proved, not assumed). -/

/-- Every node name the traversal can ever touch: the keys and all targets. -/
def univF (g : AdjList) : Finset String :=
  (g.map Prod.fst ++ (g.map Prod.snd).flatten).toFinset

/-- The total number of recorded edges. -/
def totalE (g : AdjList) : Nat := ((g.map Prod.snd).map List.length).sum

/-- The `for neighbor in self.dependencies[node]` loop of `dfs`, with the
recursive `dfs(neighbor, ...)` call inlined (see `dfsVisit`: entering a node
pushes it on the path, the visited set and the recursion stack and then
walks its neighbor list). -/
def dfsNeighbors (g : AdjList) : Nat → List String → List String →
    Finset String → Finset String → Option (List String) × Finset String
  | 0, _, _, visited, _ => (none, visited)
  | _ + 1, [], _, visited, _ => (none, visited)
  | f + 1, n :: rest, path, visited, recStack =>
    if n ∉ visited then
      match dfsNeighbors g f (lookupD g n) (path ++ [n]) (insert n visited)
          (insert n recStack) with
      | (some c, v) => (some c, v)
      | (none, v) => dfsNeighbors g f rest path v recStack
    else if n ∈ recStack then
      (some (path.drop (path.indexOf n) ++ [n]), visited)
    else dfsNeighbors g f rest path visited recStack

/-- The body of `dfs(node, path, visited, rec_stack)`. -/
def dfsVisit (g : AdjList) (fuel : Nat) (node : String) (path : List String)
    (visited recStack : Finset String) : Option (List String) × Finset String :=
  dfsNeighbors g fuel (lookupD g node) (path ++ [node]) (insert node visited)
    (insert node recStack)

/-- Fuel that the sufficiency lemmas show is never exhausted. -/
def fcdFuel (g : AdjList) : Nat := (univF g).card * (totalE g + 2) + 1

/-- The outer `for node in nodes` loop of `find_circular_dependencies`. -/
def fcdLoop (g : AdjList) : List String → Finset String → Option (List String)
  | [], _ => none
  | n :: rest, visited =>
    if n ∉ visited then
      match dfsVisit g (fcdFuel g) n [] visited ∅ with
      | (some c, _) => some c
      | (none, v) => fcdLoop g rest v
    else fcdLoop g rest visited

/-- `find_circular_dependencies` on a dependency mapping. -/
def find_circular_dependencies (g : AdjList) : Option (List String) :=
  fcdLoop g (g.map Prod.fst) ∅

/-! ### Build order (`DependencyAnalyzer.get_build_order`, Kahn's algorithm) -/

/-- The in-degree map: `defaultdict(int)` as an association list. -/
abbrev DegMap := List (String × Int)

/-- `in_degree[k] += d` on `defaultdict(int)`: update in place or append. -/
def bumpDeg (m : DegMap) (k : String) (d : Int) : DegMap :=
  match m with
  | [] => [(k, d)]
  | (a, x) :: rest => if a = k then (a, x + d) :: rest else (a, x) :: bumpDeg rest k d

/-- `if node not in in_degree: in_degree[node] = 0`. -/
def ensureKey (m : DegMap) (k : String) : DegMap :=
  if (m.lookup k).isSome then m else m ++ [(k, (0 : Int))]

/-- `for dep in self.dependencies[node]: in_degree[dep] += 1`. -/
def bumpAll (m : DegMap) (deps : List String) : DegMap :=
  deps.foldl (fun m2 dep => bumpDeg m2 dep 1) m

/-- One iteration of the in-degree computation. -/
def inDegStep (m : DegMap) (kv : String × List String) : DegMap :=
  bumpAll (ensureKey m kv.1) kv.2

/-- The in-degree computation of `get_build_order`. -/
def inDegrees (g : AdjList) : DegMap := g.foldl inDegStep []

/-- Reading the in-degree map (`defaultdict(int)`: missing keys read 0). -/
def degOf (m : DegMap) (k : String) : Int := (m.lookup k).getD 0

/-- Decrement one neighbor and enqueue it if its count reached zero. -/
def decStep (acc : DegMap × List String) (dep : String) : DegMap × List String :=
  if degOf (bumpDeg acc.1 dep (-1)) dep = 0 then
    (bumpDeg acc.1 dep (-1), acc.2 ++ [dep])
  else (bumpDeg acc.1 dep (-1), acc.2)

/-- The `for neighbor in self.dependencies[node]` loop of the sort: decrement
each neighbor and collect those that reach zero, in order. -/
def decNeighbors (degs : DegMap) (deps : List String) : DegMap × List String :=
  deps.foldl decStep (degs, [])

/-- A quantity that strictly drops at every dequeue: the fuel bound. -/
def kahnMeasure (degs : DegMap) (queue : List String) : Nat :=
  (degs.map (fun p => p.2.toNat)).sum + queue.length

/-- All node names the in-degree map ever holds. -/
def kahnNodes (g : AdjList) : List String := (inDegrees g).map Prod.fst

/-- The `while queue` loop of `get_build_order`. -/
def kahnLoop (g : AdjList) (fuel : Nat) (degs : DegMap)
    (queue result : List String) : List String :=
  match fuel with
  | 0 => result
  | f + 1 =>
    match queue with
    | [] => result
    | node :: rest =>
      let pr := decNeighbors degs (lookupD g node)
      kahnLoop g f pr.1 (rest ++ pr.2) (result ++ [node])

/-- `get_build_order` on a dependency mapping. -/
def get_build_order (g : AdjList) : List String :=
  let degs := inDegrees g
  let seed := (degs.filter (fun p => p.2 == 0)).map Prod.fst
  kahnLoop g (kahnMeasure degs seed + 1) degs seed []

/-! ### DOT export (`DependencyAnalyzer.generate_dot_graph`) -/

/-- `os.path.basename`: everything after the last `/`. -/
def baseName (p : String) : String :=
  String.mk ((p.data.reverse.takeWhile (fun c => c ≠ '/')).reverse)

/-- The node statement written for one discovered path. -/
def dotNode (p : String) : String :=
  "  \"" ++ p ++ "\" [label=\"" ++ baseName p ++ "\" fillcolor=\"" ++
    (if strEndsWith p ".h" then "lightblue" else "lightgreen") ++ "\" style=filled];"

/-- The edge statement written for one forward edge. -/
def dotEdge (u v : String) : String := "  \"" ++ u ++ "\" -> \"" ++ v ++ "\";"

/-- `generate_dot_graph`, one written line per list entry. -/
def generate_dot_graph (files : List (String × String)) (d : AdjList) : List String :=
  ["digraph dependencies \x7b", "  rankdir=TB;", "  node [shape=box];"] ++
    files.map (fun kv => dotNode kv.2) ++
    d.flatMap (fun kv => kv.2.map (fun dep => dotEdge kv.1 dep)) ++ ["\x7d"]

/-! ### Statistics (`DependencyAnalyzer.print_statistics`)

Python's `max()` over `(len(deps), file)` pairs compares lexicographically,
keeps the first maximal element, and raises `ValueError` on an empty
sequence; the `none` result models that uncaught exception (a nonzero
process exit). -/

/-- Python tuple comparison `(n, s) > (m, t)`. -/
def pairGT (a b : Nat × String) : Bool :=
  b.1 < a.1 || (a.1 == b.1 && decide (b.2 < a.2))

/-- Python `max(items)`; `none` is the `ValueError` on an empty sequence. -/
def pyMax (items : List (Nat × String)) : Option (Nat × String) :=
  match items with
  | [] => none
  | x :: xs => some (xs.foldl (fun best y => if pairGT y best then y else best) x)

/-- `print_statistics`: the printed numbers, or `none` when it raises. -/
def print_statistics (files : List (String × String)) (d r : AdjList) :
    Option (Nat × Nat × Nat × (Nat × String) × (Nat × String)) :=
  let src := ((files.map Prod.snd).filter (fun p => strEndsAny p [".c", ".S"])).length
  let hdr := ((files.map Prod.snd).filter (fun p => strEndsWith p ".h")).length
  let tot := ((d.map Prod.snd).map List.length).sum
  match pyMax (d.map (fun kv => (kv.2.length, kv.1))) with
  | none => none
  | some mx =>
    match pyMax (r.map (fun kv => (kv.2.length, kv.1))) with
    | none => none
    | some mr => some (src, hdr, tot, mx, mr)

/-- The statistics step of `main` on a modelled filesystem. -/
def runStatistics (m : FsModel) :
    Option (Nat × Nat × Nat × (Nat × String) × (Nat × String)) :=
  let st := build_dependency_graph m
  print_statistics (find_source_files m.walk) st.dependencies st.reverse_deps

/-! ### Predicates and concrete instances used by the theorems -/

/-- The reverse index is exactly the transpose of the forward mapping. -/
def Transposed (d r : AdjList) : Prop :=
  ∀ u v, v ∈ lookupD d u ↔ u ∈ lookupD r v

/-- No key's target set contains the key itself. -/
def NoSelfLoop (d : AdjList) : Prop := ∀ u, u ∉ lookupD d u

/-- The model in which path `p` reads as `c` and everything else is as in
`m`. -/
def setContent (m : FsModel) (p : String) (c : Option (List String)) : FsModel :=
  { m with contents := (p, c) :: m.contents }

/-- What the spec asserts of a returned cycle: consecutive elements are
edges of the forward mapping, it has at least two elements, and its first
element equals its last. -/
def GoodCycle (g : AdjList) (c : List String) : Prop :=
  List.Chain' (Edge g) c ∧ 2 ≤ c.length ∧ c.head? = c.getLast?

/-- The well-formedness the builder guarantees of the mapping it hands to
the graph algorithms: keys are unique (it is a dict) and each target list is
duplicate-free (it is a set). -/
def WFAdj (g : AdjList) : Prop :=
  (g.map Prod.fst).Nodup ∧ ∀ kv ∈ g, kv.2.Nodup

/-- The in-neighbours of `n` recorded by the forward mapping. -/
def preds (g : AdjList) (n : String) : Finset String :=
  (g.map Prod.fst).toFinset.filter (fun u => Edge g u n)

/-- The DFS invariant: a finished (black) node, one that is visited and not
on the recursion stack, has only black successors and no cycle through it. -/
def BlackInv (g : AdjList) (v r : Finset String) : Prop :=
  (∀ b ∈ v, b ∉ r → ∀ x, Edge g b x → x ∈ v ∧ x ∉ r) ∧
    ∀ b ∈ v, b ∉ r → ¬ CycAt g b

/-- The loop invariant of Kahn's algorithm as implemented: the current count
of a node undercounts its in-neighbours by exactly those already emitted;
the queue and the result are disjoint duplicate-free subsets of the node
set; a node's count is nonpositive exactly when it has been seen; queued
nodes already have all their in-neighbours emitted; and every emitted node
appears after all of its in-neighbours. -/
structure KInv (g : AdjList) (degs : DegMap) (queue result : List String) : Prop where
  val : ∀ n, degOf degs n =
    ((preds g n).card : Int) - ((preds g n ∩ result.toFinset).card : Int)
  resNodup : result.Nodup
  qNodup : queue.Nodup
  disj : ∀ x ∈ queue, x ∉ result
  qSub : ∀ x ∈ queue, x ∈ kahnNodes g
  resSub : ∀ x ∈ result, x ∈ kahnNodes g
  seenNonpos : ∀ n, n ∈ queue ∨ n ∈ result → degOf degs n ≤ 0
  nonposSeen : ∀ n ∈ kahnNodes g, degOf degs n ≤ 0 → n ∈ queue ∨ n ∈ result
  qPreds : ∀ n ∈ queue, preds g n ⊆ result.toFinset
  resOrder : ∀ v ∈ result, ∀ u ∈ preds g v,
    u ∈ result ∧ result.indexOf u < result.indexOf v

/-- A two-node circular graph, as the builder would key it. -/
def gCyc : AdjList := [("a.c", ["b.c"]), ("b.c", ["a.c"])]

/-- A small acyclic graph. -/
def gAcy : AdjList := [("a.c", ["b.h", "c.h"]), ("x.c", ["b.h"])]

/-- Scenario 2 of the spec: `a.h` includes `b.h` and `b.h` includes `a.h`,
both discovered at the top of the tree. -/
def mScenario2 : FsModel :=
  ⟨[(".", ["a.h", "b.h"])],
    [("a.h", some ["#include \"b.h\""]), ("b.h", some ["#include \"a.h\""])], [], []⟩

/-- A model whose one source file includes one discovered header. -/
def mEdgeWitness : FsModel :=
  ⟨[(".", ["a.c", "b.h"])],
    [("a.c", some ["#include \"b.h\""]), ("b.h", some [])], [], []⟩

/-- A model with a discovered source file but no edges at all. -/
def mNoEdges : FsModel := ⟨[(".", ["a.c"])], [("a.c", some [])], [], []⟩

/-- A model with one unreadable file next to an ordinary one. -/
def mUnreadable : FsModel :=
  ⟨[(".", ["u.c", "w.c"])],
    [("u.c", none), ("w.c", some ["#include \"u.c\""])], [], []⟩

/-- A model in which nothing at all is discovered. -/
def mEmpty : FsModel := ⟨[], [], [], []⟩

/-! ## Lemmas about the association-list operations -/

lemma lookupD_nil (k : String) : lookupD [] k = [] := rfl

lemma lookup_cons_ne {β : Type} (x k : String) (b : β) (l : List (String × β)) (h : x ≠ k) :
    List.lookup x ((k, b) :: l) = List.lookup x l := by
  have hb : (x == k) = false := beq_eq_false_iff_ne.mpr h
  simp [List.lookup_cons, hb]

lemma lookup_cons_self {β : Type} (x : String) (b : β) (l : List (String × β)) :
    List.lookup x ((x, b) :: l) = some b := by
  simp [List.lookup_cons]

lemma lookupD_cons_ne (x k : String) (b : List String) (l : AdjList) (h : x ≠ k) :
    lookupD ((k, b) :: l) x = lookupD l x := by
  simp [lookupD, lookup_cons_ne x k b l h]

lemma lookupD_cons_self (x : String) (b : List String) (l : AdjList) :
    lookupD ((x, b) :: l) x = b := by
  simp [lookupD, lookup_cons_self]

lemma lookupD_adjAdd (g : AdjList) (k v x : String) :
    lookupD (adjAdd g k v) x =
      if x = k then (if v ∈ lookupD g k then lookupD g k else lookupD g k ++ [v])
      else lookupD g x := by
  induction g with
  | nil =>
    by_cases hx : x = k
    · subst hx; simp [adjAdd, lookupD_cons_self, lookupD_nil]
    · simp [adjAdd, lookupD_cons_ne x k _ _ hx, hx, lookupD_nil]
  | cons p rest ih =>
    obtain ⟨a, vs⟩ := p
    by_cases hak : a = k
    · subst hak
      by_cases hx : x = a
      · subst hx
        simp [adjAdd, lookupD_cons_self]
      · simp [adjAdd, lookupD_cons_ne x a _ _ hx, hx]
    · by_cases hx : x = a
      · subst hx
        have hxk : x ≠ k := hak
        simp [adjAdd, hak, lookupD_cons_self, hxk]
      · have h1 : lookupD (adjAdd ((a, vs) :: rest) k v) x = lookupD (adjAdd rest k v) x := by
          simp only [adjAdd, if_neg hak]
          exact lookupD_cons_ne x a _ _ hx
        rw [h1, ih, lookupD_cons_ne x a _ _ hx]
        by_cases hk : x = k
        · subst hk
          rw [lookupD_cons_ne x a _ _ hx]
        · simp [hk]

lemma mem_lookupD_adjAdd {g : AdjList} {k v x y : String} :
    y ∈ lookupD (adjAdd g k v) x ↔ (x = k ∧ y = v) ∨ y ∈ lookupD g x := by
  rw [lookupD_adjAdd]
  by_cases hx : x = k
  · subst hx
    rw [if_pos rfl]
    by_cases hv : v ∈ lookupD g x
    · rw [if_pos hv]
      constructor
      · exact fun h => Or.inr h
      · rintro (⟨-, rfl⟩ | h)
        · exact hv
        · exact h
    · rw [if_neg hv]
      constructor
      · intro h
        rcases List.mem_append.mp h with h | h
        · exact Or.inr h
        · exact Or.inl ⟨rfl, List.mem_singleton.mp h⟩
      · rintro (⟨-, rfl⟩ | h)
        · exact List.mem_append.mpr (Or.inr (List.mem_singleton.mpr rfl))
        · exact List.mem_append.mpr (Or.inl h)
  · rw [if_neg hx]
    simp [hx]

/-! ## C4: the forward/reverse invariant of the builder -/

lemma transposed_addEdge {st : GState} {e : String × String}
    (h : Transposed st.dependencies st.reverse_deps) :
    Transposed (addEdge st e).dependencies (addEdge st e).reverse_deps := by
  intro u v
  simp only [addEdge, mem_lookupD_adjAdd]
  rw [h u v]
  constructor
  · rintro (⟨rfl, rfl⟩ | hm)
    · exact Or.inl ⟨rfl, rfl⟩
    · exact Or.inr hm
  · rintro (⟨rfl, rfl⟩ | hm)
    · exact Or.inl ⟨rfl, rfl⟩
    · exact Or.inr hm

lemma noSelfLoop_addEdge {st : GState} {e : String × String} (hne : e.1 ≠ e.2)
    (h : NoSelfLoop st.dependencies) : NoSelfLoop (addEdge st e).dependencies := by
  obtain ⟨a, b⟩ := e
  intro u
  simp only [addEdge, mem_lookupD_adjAdd]
  rintro (⟨rfl, rfl⟩ | hm)
  · exact hne rfl
  · exact h u hm

lemma foldl_addEdge_inv : ∀ (l : List (String × String)) (st : GState),
    (∀ e ∈ l, e.1 ≠ e.2) →
    Transposed st.dependencies st.reverse_deps → NoSelfLoop st.dependencies →
    Transposed (l.foldl addEdge st).dependencies (l.foldl addEdge st).reverse_deps ∧
      NoSelfLoop (l.foldl addEdge st).dependencies := by
  intro l
  induction l with
  | nil => intro st _ h1 h2; exact ⟨h1, h2⟩
  | cons e rest ih =>
    intro st hl h1 h2
    simp only [List.foldl_cons]
    exact ih _ (fun x hx => hl x (List.mem_cons_of_mem e hx))
      (transposed_addEdge h1) (noSelfLoop_addEdge (hl e (List.mem_cons_self e rest)) h2)

lemma applyEvents_inv (l : List (String × String)) (hl : ∀ e ∈ l, e.1 ≠ e.2) :
    Transposed (applyEvents l).dependencies (applyEvents l).reverse_deps ∧
      NoSelfLoop (applyEvents l).dependencies := by
  refine foldl_addEdge_inv l ⟨[], []⟩ hl ?_ ?_
  · intro u v; simp [lookupD_nil]
  · intro u; simp [lookupD_nil]

lemma buildEvents_ne (m : FsModel) : ∀ e ∈ buildEvents m, e.1 ≠ e.2 := by
  intro e he
  simp only [buildEvents, List.mem_flatMap] at he
  obtain ⟨kv, _, he⟩ := he
  simp only [fileEvents] at he
  split at he
  · simp only [List.mem_filterMap] at he
    obtain ⟨inc, _, he⟩ := he
    rcases hr : resolve_include (find_source_files m.walk) m inc with _ | r <;> rw [hr] at he
    · exact absurd he (by simp)
    · by_cases hne : r ≠ kv.2
      · simp only [if_pos hne, Option.some_inj] at he
        rw [← he]
        simpa using fun hc => hne hc.symm
      · simp [if_neg hne] at he
  · simp at he

/-! ## C6: unreadable files are recovered locally -/

lemma contentOf_setContent_self (m : FsModel) (p : String) (c : Option (List String)) :
    contentOf (setContent m p c) p = c := by
  simp [contentOf, setContent, lookup_cons_self]

lemma contentOf_setContent_ne (m : FsModel) (p q : String) (c : Option (List String))
    (h : q ≠ p) : contentOf (setContent m p c) q = contentOf m q := by
  simp [contentOf, setContent, lookup_cons_ne q p _ _ h]

lemma resolve_setContent (files : List (String × String)) (m : FsModel) (p : String)
    (c : Option (List String)) (name : String) :
    resolve_include files (setContent m p c) name = resolve_include files m name := by
  have hs : ∀ l, searchDirs (setContent m p c) name l = searchDirs m name l := by
    intro l
    induction l with
    | nil => rfl
    | cons d rest ih =>
      show (if pathJoin d name ∈ m.extant then some (pathJoin d name)
        else searchDirs (setContent m p c) name rest) = _
      rw [ih]
      rfl
  unfold resolve_include
  cases List.lookup name files with
  | none =>
    show searchDirs (setContent m p c) name m.includeDirs = searchDirs m name m.includeDirs
    exact hs m.includeDirs
  | some q => rfl

lemma fileEvents_setContent (m : FsModel) (files : List (String × String)) (p : String)
    (hp : contentOf m p = none) (kv : String × String) :
    fileEvents (setContent m p (some [])) files kv = fileEvents m files kv := by
  unfold fileEvents
  by_cases hk : kv.2 = p
  · rw [hk, contentOf_setContent_self, hp]
    simp [parse_includes, parseLines]
  · rw [contentOf_setContent_ne m p kv.2 _ hk]
    simp only [resolve_setContent]

/-- C6: when reading a file fails (its content is unreadable), the warning
flag is raised, the file contributes zero includes, and the rest of the
analysis proceeds exactly as if the file were empty: the discovery map and
the whole dependency graph agree with those of the patched model. -/
theorem c6_unreadable_recovered (m : FsModel) (p : String) (h : contentOf m p = none) :
    parse_includes (contentOf m p) = ([], true) ∧
      build_dependency_graph m = build_dependency_graph (setContent m p (some [])) ∧
      find_source_files (setContent m p (some [])).walk = find_source_files m.walk := by
  refine ⟨by rw [h]; rfl, ?_, rfl⟩
  unfold build_dependency_graph buildEvents
  have hwalk : (setContent m p (some [])).walk = m.walk := rfl
  rw [hwalk]
  congr 1
  exact (List.flatMap_congr (fun kv _ => fileEvents_setContent m _ p h kv)).symm

/-- Witness for C6 at a concrete model with an unreadable `u.c`. -/
theorem c6_unreadable_recovered_witness :
    parse_includes (contentOf mUnreadable "u.c") = ([], true) ∧
      build_dependency_graph mUnreadable =
        build_dependency_graph (setContent mUnreadable "u.c" (some [])) ∧
      find_source_files (setContent mUnreadable "u.c" (some [])).walk =
        find_source_files mUnreadable.walk :=
  c6_unreadable_recovered mUnreadable "u.c" (by decide)

/-! ## C7: discovery exclusions -/

lemma dropStart_self_append (p l : List Char) : dropStart p (p ++ l) = some l := by
  induction p with
  | nil => rfl
  | cons c cs ih => simp [dropStart, ih]

lemma hasSeg_of_append (p a b : List Char) : hasSeg p (a ++ p ++ b) = true := by
  induction a with
  | nil =>
    simp only [List.nil_append]
    match p, b with
    | [], [] => rfl
    | [], c :: t => simp [hasSeg, dropStart]
    | q :: qs, b =>
      have hds : dropStart (q :: qs) (q :: (qs ++ b)) = some b := by
        simpa using dropStart_self_append (q :: qs) b
      simp [hasSeg, hds]
  | cons c a ih =>
    have ih2 : hasSeg p (a ++ (p ++ b)) = true := by
      simpa [List.append_assoc] using ih
    simp [hasSeg, ih2]

lemma strContains_append (s t : String) (p : String) :
    strContains (s ++ p ++ t) p = true := by
  have hd : (s ++ p ++ t).data = s.data ++ p.data ++ t.data := by
    simp [String.data_append]
  simp only [strContains, hd]
  exact hasSeg_of_append p.data s.data t.data

lemma walkStep_excluded {e : String × List String} (m : List (String × String))
    (h : excludedRoot e.1 = true) : walkStep m e = m := by
  simp [walkStep, h]

lemma walkStep_kept {e : String × List String} (m : List (String × String))
    (h : excludedRoot e.1 = false) : walkStep m e = e.2.foldl (addWalkFile e.1) m := by
  simp [walkStep, h]

lemma addWalkFile_guest_skip (root : String) (hg : strContains root "guest" = true)
    (m : List (String × String)) (f : String) (hf : f ∉ guestAllow) :
    addWalkFile root m f = m := by
  unfold addWalkFile
  split
  · simp [hg, hf]
  · rfl

lemma walkStep_guest (root : String) (files : List String) (m : List (String × String))
    (hg : strContains root "guest" = true) :
    files.foldl (addWalkFile root) m =
      (files.filter (fun f => decide (f ∈ guestAllow))).foldl (addWalkFile root) m := by
  induction files generalizing m with
  | nil => rfl
  | cons f rest ih =>
    by_cases hf : f ∈ guestAllow
    · simp only [List.foldl_cons, List.filter_cons, decide_eq_true hf, List.foldl_cons]
      exact ih _
    · simp only [List.foldl_cons, List.filter_cons, decide_eq_false hf,
        addWalkFile_guest_skip root hg m f hf]
      exact ih m

lemma walkStep_guestFilter (m : List (String × String)) (e : String × List String) :
    walkStep m (if strContains e.1 "guest" then
      (e.1, e.2.filter (fun f => decide (f ∈ guestAllow))) else e) = walkStep m e := by
  by_cases hg : strContains e.1 "guest" = true
  · rw [if_pos hg]
    cases he : excludedRoot e.1 with
    | true =>
      rw [walkStep_excluded m he]
      exact walkStep_excluded m he
    | false =>
      rw [@walkStep_kept (e.1, e.2.filter (fun f => decide (f ∈ guestAllow))) m he,
        walkStep_kept m he]
      exact (walkStep_guest e.1 e.2 m hg).symm
  · rw [if_neg hg]

/-- C7: (a) a root lying under a directory named `clib` is excluded, and an
excluded walk entry contributes nothing to discovery; (b) below a
guest-payload root only the allow-listed filenames contribute, whatever
their extension; (c) in an `app` directory `syscall.S` is absent from the
discovery mapping while its siblings are present. -/
theorem c7_discovery_rules (walk : List (String × List String)) :
    (∀ s t : String, excludedRoot (s ++ "clib" ++ t) = true) ∧
      find_source_files walk =
        find_source_files (walk.filter (fun e => !excludedRoot e.1)) ∧
      find_source_files walk =
        find_source_files (walk.map (fun e =>
          if strContains e.1 "guest" then
            (e.1, e.2.filter (fun f => decide (f ∈ guestAllow)))
          else e)) ∧
      (find_source_files [("app", ["syscall.S", "main.c", "boot.S"])]).lookup
          "syscall.S" = none ∧
      (find_source_files [("app", ["syscall.S", "main.c", "boot.S"])]).lookup
          "main.c" = some "app/main.c" ∧
      (find_source_files [("app", ["syscall.S", "main.c", "boot.S"])]).lookup
          "boot.S" = some "app/boot.S" := by
  refine ⟨?_, ?_, ?_, by decide, by decide, by decide⟩
  · intro s t
    unfold excludedRoot
    rw [strContains_append s t "clib"]
    rfl
  · unfold find_source_files
    generalize ([] : List (String × String)) = m0
    induction walk generalizing m0 with
    | nil => rfl
    | cons e rest ih =>
      cases he : excludedRoot e.1 with
      | true =>
        rw [List.foldl_cons, walkStep_excluded m0 he,
          List.filter_cons_of_neg (by simp [he]), ih m0]
      | false =>
        rw [List.foldl_cons, List.filter_cons_of_pos (by simp [he]), List.foldl_cons,
          ih (walkStep m0 e)]
  · unfold find_source_files
    generalize ([] : List (String × String)) = m0
    induction walk generalizing m0 with
    | nil => rfl
    | cons e rest ih =>
      rw [List.map_cons, List.foldl_cons, List.foldl_cons, walkStep_guestFilter m0 e,
        ih (walkStep m0 e)]

/-- C4: after every edge insertion performed by the graph builder (every
prefix of its insertion sequence, hence in particular the final state, which
is `build_dependency_graph`), the reverse index is exactly the transpose of
the forward mapping, and no key's target set contains the key itself. -/
theorem c4_transpose_invariant (m : FsModel) (n : Nat) :
    Transposed (applyEvents ((buildEvents m).take n)).dependencies
        (applyEvents ((buildEvents m).take n)).reverse_deps ∧
      NoSelfLoop (applyEvents ((buildEvents m).take n)).dependencies ∧
      build_dependency_graph m = applyEvents (buildEvents m) := by
  have h := applyEvents_inv ((buildEvents m).take n)
    (fun e he => buildEvents_ne m e (List.take_subset n _ he))
  exact ⟨h.1, h.2, rfl⟩

/-! ## C2: the cycle detector -/

lemma lookup_mem {β : Type} {l : List (String × β)} {k : String} {b : β}
    (h : List.lookup k l = some b) : (k, b) ∈ l := by
  induction l with
  | nil => simp [List.lookup] at h
  | cons p rest ih =>
    obtain ⟨a, v⟩ := p
    by_cases hk : k = a
    · subst hk
      rw [lookup_cons_self] at h
      obtain rfl : v = b := by injection h
      exact List.mem_cons_self _ _
    · rw [lookup_cons_ne k a v rest hk] at h
      exact List.mem_cons_of_mem _ (ih h)

lemma mem_lookupD_univ {g : AdjList} {u x : String} (h : x ∈ lookupD g u) :
    x ∈ univF g := by
  unfold lookupD at h
  cases hl : List.lookup u g with
  | none => rw [hl] at h; simp at h
  | some vs =>
    rw [hl] at h
    simp only [Option.getD_some] at h
    have hm : (u, vs) ∈ g := lookup_mem hl
    have : vs ∈ g.map Prod.snd := List.mem_map_of_mem Prod.snd hm
    simp only [univF, List.mem_toFinset, List.mem_append]
    exact Or.inr (List.mem_flatten.mpr ⟨vs, this, h⟩)

lemma edge_src_key {g : AdjList} {u v : String} (h : Edge g u v) :
    u ∈ g.map Prod.fst := by
  unfold Edge lookupD at h
  cases hl : List.lookup u g with
  | none => rw [hl] at h; simp at h
  | some vs => exact List.mem_map_of_mem Prod.fst (lookup_mem hl)

lemma key_mem_univ {g : AdjList} {u : String} (h : u ∈ g.map Prod.fst) :
    u ∈ univF g := by
  simp only [univF, List.mem_toFinset, List.mem_append]
  exact Or.inl h

lemma lookupD_len_le (g : AdjList) (x : String) :
    (lookupD g x).length ≤ totalE g := by
  unfold lookupD
  cases hl : List.lookup x g with
  | none => simp [totalE]
  | some vs =>
    simp only [Option.getD_some]
    have hm : vs.length ∈ (g.map Prod.snd).map List.length :=
      List.mem_map_of_mem List.length (List.mem_map_of_mem Prod.snd (lookup_mem hl))
    exact List.single_le_sum (fun x _ => Nat.zero_le x) _ hm

lemma black_reach {g : AdjList} {v r : Finset String}
    (h1 : ∀ b ∈ v, b ∉ r → ∀ x, Edge g b x → x ∈ v ∧ x ∉ r)
    {b y : String} (hb : b ∈ v) (hbr : b ∉ r)
    (hr : Relation.ReflTransGen (Edge g) b y) : y ∈ v ∧ y ∉ r := by
  induction hr with
  | refl => exact ⟨hb, hbr⟩
  | tail hp hs ih => exact h1 _ ih.1 ih.2 _ hs

lemma blackInv_insert_both {g : AdjList} {v r : Finset String} {n : String}
    (h : BlackInv g v r) (hn : n ∉ v) : BlackInv g (insert n v) (insert n r) := by
  constructor
  · intro b hb hbr x hx
    have hbn : b ≠ n := fun he => hbr (he ▸ Finset.mem_insert_self n r)
    have hbv : b ∈ v := (Finset.mem_insert.mp hb).resolve_left hbn
    have hbr2 : b ∉ r := fun hc => hbr (Finset.mem_insert_of_mem hc)
    obtain ⟨h1, h2⟩ := h.1 b hbv hbr2 x hx
    refine ⟨Finset.mem_insert_of_mem h1, ?_⟩
    intro hc
    rcases Finset.mem_insert.mp hc with rfl | hc
    · exact hn h1
    · exact h2 hc
  · intro b hb hbr
    have hbn : b ≠ n := fun he => hbr (he ▸ Finset.mem_insert_self n r)
    exact h.2 b ((Finset.mem_insert.mp hb).resolve_left hbn)
      (fun hc => hbr (Finset.mem_insert_of_mem hc))

lemma blackInv_finish {g : AdjList} {v r : Finset String} {n : String}
    (h : BlackInv g v (insert n r)) (hnv : n ∈ v)
    (hedges : ∀ x, Edge g n x → x ∈ v ∧ x ∉ insert n r) :
    BlackInv g v r := by
  have closure : ∀ b ∈ v, b ∉ r → ∀ x, Edge g b x → x ∈ v ∧ x ∉ r := by
    intro b hb hbr x hx
    by_cases hbn : b = n
    · subst hbn
      obtain ⟨h1, h2⟩ := hedges x hx
      exact ⟨h1, fun hc => h2 (Finset.mem_insert_of_mem hc)⟩
    · obtain ⟨h1, h2⟩ := h.1 b hb (fun hc => (Finset.mem_insert.mp hc).elim hbn hbr) x hx
      exact ⟨h1, fun hc => h2 (Finset.mem_insert_of_mem hc)⟩
  refine ⟨closure, ?_⟩
  intro b hb hbr
  by_cases hbn : b = n
  · subst hbn
    intro hcyc
    obtain ⟨x, hx, hr⟩ := hcyc
    obtain ⟨hxv, hxr⟩ := hedges x hx
    exact (black_reach h.1 hxv hxr hr).2 (Finset.mem_insert_self b r)
  · exact h.2 b hb (fun hc => (Finset.mem_insert.mp hc).elim hbn hbr)

lemma remaining_succ {g : AdjList} {vis : Finset String} {n : String}
    (hn : n ∈ univF g) (hnv : n ∉ vis) :
    (univF g \ insert n vis).card + 1 = (univF g \ vis).card := by
  have he : univF g \ insert n vis = (univF g \ vis).erase n := by
    ext x
    simp only [Finset.mem_sdiff, Finset.mem_insert, Finset.mem_erase]
    tauto
  rw [he, Finset.card_erase_of_mem (Finset.mem_sdiff.mpr ⟨hn, hnv⟩)]
  have hpos : 0 < (univF g \ vis).card :=
    Finset.card_pos.mpr ⟨n, Finset.mem_sdiff.mpr ⟨hn, hnv⟩⟩
  omega

lemma chainExt (g : AdjList) : ∀ (path : List String) (node : String),
    List.Chain' (Edge g) path →
    (∀ hp : path ≠ [], Edge g (path.getLast hp) node) →
    List.Chain' (Edge g) (path ++ [node]) := by
  intro path node hchain hedge
  refine List.chain'_append.mpr ⟨hchain, List.chain'_singleton node, ?_⟩
  intro x hx y hy
  simp only [List.head?_cons, Option.mem_def, Option.some_inj] at hy
  subst hy
  have hne : path ≠ [] := by
    intro hnil
    subst hnil
    simp at hx
  rw [List.getLast?_eq_getLast path hne] at hx
  simp only [Option.mem_def, Option.some_inj] at hx
  subst hx
  exact hedge hne

lemma dfsNeighbors_sound (g : AdjList) : ∀ (fuel : Nat) (l path : List String)
    (visited recStack : Finset String) (c : List String) (v : Finset String),
    List.Chain' (Edge g) path →
    (∀ x ∈ recStack, x ∈ path) →
    (∀ x ∈ l, ∀ hp : path ≠ [], Edge g (path.getLast hp) x) →
    dfsNeighbors g fuel l path visited recStack = (some c, v) →
    GoodCycle g c := by
  intro fuel
  induction fuel with
  | zero =>
    intro l path visited recStack c v _ _ _ heq
    rw [dfsNeighbors.eq_def] at heq
    exact Option.noConfusion (congrArg Prod.fst heq)
  | succ f ih =>
    intro l path visited recStack c v hchain hrs hl heq
    cases l with
    | nil =>
      rw [dfsNeighbors] at heq
      exact Option.noConfusion (congrArg Prod.fst heq)
    | cons n rest =>
      rw [dfsNeighbors] at heq
      by_cases hn : n ∈ visited
      · rw [if_neg (not_not_intro hn)] at heq
        by_cases hnr : n ∈ recStack
        · rw [if_pos hnr] at heq
          injection heq with h1 h2
          injection h1 with h1
          subst h1
          have hnp : n ∈ path := hrs n hnr
          have hi : path.indexOf n < path.length := List.indexOf_lt_length.mpr hnp
          have hchain2 : List.Chain' (Edge g) (path ++ [n]) :=
            chainExt g path n hchain (fun hp => hl n (List.mem_cons_self n rest) hp)
          have hdrop : (path ++ [n]).drop (path.indexOf n) =
              path.drop (path.indexOf n) ++ [n] :=
            List.drop_append_of_le_length (le_of_lt hi)
          refine ⟨?_, ?_, ?_⟩
          · have hcd := hchain2.drop (path.indexOf n)
            rwa [hdrop] at hcd
          · rw [List.length_append, List.length_drop]
            simp only [List.length_singleton]
            omega
          · have hh : (path.drop (path.indexOf n)).head? = some n := by
              rw [List.head?_drop, List.getElem?_eq_getElem hi]
              exact congrArg some (List.getElem_indexOf hi)
            rw [List.getLast?_concat, List.head?_append, hh]
            rfl
        · rw [if_neg hnr] at heq
          exact ih rest path visited recStack c v hchain hrs
            (fun x hx => hl x (List.mem_cons_of_mem n hx)) heq
      · rw [if_pos hn] at heq
        rcases hv : dfsNeighbors g f (lookupD g n) (path ++ [n]) (insert n visited)
            (insert n recStack) with ⟨oc, v1⟩
        rw [hv] at heq
        cases oc with
        | some c2 =>
          injection heq with h1 h2
          injection h1 with h1
          have hchain2 : List.Chain' (Edge g) (path ++ [n]) :=
            chainExt g path n hchain (fun hp => hl n (List.mem_cons_self n rest) hp)
          have hsub : ∀ x ∈ insert n recStack, x ∈ path ++ [n] := by
            intro x hx
            rcases Finset.mem_insert.mp hx with rfl | hx
            · exact List.mem_append_right _ (List.mem_singleton.mpr rfl)
            · exact List.mem_append_left _ (hrs x hx)
          have hedge2 : ∀ x ∈ lookupD g n, ∀ hp : path ++ [n] ≠ [],
              Edge g ((path ++ [n]).getLast hp) x := by
            intro x hx hp
            rw [List.getLast_concat]
            exact hx
          have hgc := ih (lookupD g n) (path ++ [n]) (insert n visited)
            (insert n recStack) c2 v1 hchain2 hsub hedge2 hv
          rwa [h1] at hgc
        | none =>
          exact ih rest path v1 recStack c v hchain hrs
            (fun x hx => hl x (List.mem_cons_of_mem n hx)) heq

lemma dfsVisit_sound (g : AdjList) (fuel : Nat) (node : String)
    (visited recStack : Finset String) (c : List String) (v : Finset String)
    (heq : dfsVisit g fuel node [] visited recStack = (some c, v))
    (hrs : recStack = ∅) : GoodCycle g c := by
  subst hrs
  unfold dfsVisit at heq
  refine dfsNeighbors_sound g fuel (lookupD g node) ([] ++ [node]) (insert node visited)
    (insert node ∅) c v ?_ ?_ ?_ heq
  · simp
  · intro x hx
    rcases Finset.mem_insert.mp hx with rfl | hx
    · simp
    · exact absurd hx (Finset.not_mem_empty x)
  · intro x hx hp
    rw [show (([] : List String) ++ [node]).getLast hp = node from rfl]
    exact hx

lemma dfsNeighbors_complete (g : AdjList) : ∀ (fuel : Nat) (l path : List String)
    (visited recStack : Finset String) (v2 : Finset String),
    (∀ x ∈ l, x ∈ univF g) → visited ⊆ univF g →
    recStack ⊆ visited → BlackInv g visited recStack →
    (univF g \ visited).card * (totalE g + 2) + l.length + 1 ≤ fuel →
    dfsNeighbors g fuel l path visited recStack = (none, v2) →
    visited ⊆ v2 ∧ v2 ⊆ univF g ∧ BlackInv g v2 recStack ∧
      ∀ x ∈ l, x ∈ v2 ∧ x ∉ recStack := by
  intro fuel
  induction fuel with
  | zero =>
    intro l path visited recStack v2 hlu hvu hrv hbi hfuel heq
    exact absurd hfuel (Nat.not_succ_le_zero _)
  | succ f ih =>
    intro l path visited recStack v2 hlu hvu hrv hbi hfuel heq
    cases l with
    | nil =>
      rw [dfsNeighbors] at heq
      injection heq with h1 h2
      subst h2
      exact ⟨Finset.Subset.refl _, hvu, hbi, by simp⟩
    | cons n rest =>
      rw [dfsNeighbors] at heq
      simp only [List.length_cons] at hfuel
      by_cases hn : n ∈ visited
      · rw [if_neg (not_not_intro hn)] at heq
        by_cases hnr : n ∈ recStack
        · rw [if_pos hnr] at heq
          exact Option.noConfusion (congrArg Prod.fst heq)
        · rw [if_neg hnr] at heq
          have hres := ih rest path visited recStack v2
            (fun x hx => hlu x (List.mem_cons_of_mem n hx)) hvu hrv hbi (by omega) heq
          obtain ⟨h1, h2, h3, h4⟩ := hres
          refine ⟨h1, h2, h3, ?_⟩
          intro x hx
          rcases List.mem_cons.mp hx with rfl | hx
          · exact ⟨h1 hn, hnr⟩
          · exact h4 x hx
      · rw [if_pos hn] at heq
        rcases hv : dfsNeighbors g f (lookupD g n) (path ++ [n]) (insert n visited)
            (insert n recStack) with ⟨oc, v1⟩
        rw [hv] at heq
        cases oc with
        | some c2 => exact Option.noConfusion (congrArg Prod.fst heq)
        | none =>
          have hnu : n ∈ univF g := hlu n (List.mem_cons_self n rest)
          have hrem : (univF g \ insert n visited).card + 1 =
              (univF g \ visited).card := remaining_succ hnu hn
          have hlen : (lookupD g n).length ≤ totalE g := lookupD_len_le g n
          have hfuel2 : (univF g \ insert n visited).card * (totalE g + 2) +
              (lookupD g n).length + 1 ≤ f := by
            rw [← hrem] at hfuel
            have hexp : ((univF g \ insert n visited).card + 1) * (totalE g + 2) =
                (univF g \ insert n visited).card * (totalE g + 2) + (totalE g + 2) := by
              ring
            rw [hexp] at hfuel
            omega
          have hvres := ih (lookupD g n) (path ++ [n]) (insert n visited)
            (insert n recStack) v1 (fun x hx => mem_lookupD_univ hx)
            (Finset.insert_subset_iff.mpr ⟨hnu, hvu⟩)
            (Finset.insert_subset_insert n hrv)
            (blackInv_insert_both hbi hn) hfuel2 hv
          obtain ⟨hs1, hs2, hs3, hs4⟩ := hvres
          have hnv1 : n ∈ v1 := hs1 (Finset.mem_insert_self n visited)
          have hvisv1 : visited ⊆ v1 := fun x hx => hs1 (Finset.mem_insert_of_mem hx)
          have hbi1 : BlackInv g v1 recStack :=
            blackInv_finish hs3 hnv1 (fun x hx => hs4 x hx)
          have hmul : (univF g \ v1).card * (totalE g + 2) ≤
              (univF g \ visited).card * (totalE g + 2) := by
            refine Nat.mul_le_mul_right _ (Finset.card_le_card ?_)
            exact Finset.sdiff_subset_sdiff (Finset.Subset.refl (univF g)) hvisv1
          have hres := ih rest path v1 recStack v2
            (fun x hx => hlu x (List.mem_cons_of_mem n hx)) hs2
            (hrv.trans hvisv1) hbi1 (by omega) heq
          obtain ⟨hr1, hr2, hr3, hr4⟩ := hres
          refine ⟨hvisv1.trans hr1, hr2, hr3, ?_⟩
          intro x hx
          rcases List.mem_cons.mp hx with rfl | hx
          · exact ⟨hr1 hnv1, fun hc => hn (hrv hc)⟩
          · exact hr4 x hx

lemma dfsVisit_complete (g : AdjList) (fuel : Nat) (node : String) (path : List String)
    (visited recStack v2 : Finset String)
    (hnu : node ∈ univF g) (hnv : node ∉ visited) (hvu : visited ⊆ univF g)
    (hrv : recStack ⊆ visited) (hbi : BlackInv g visited recStack)
    (hfuel : (univF g \ visited).card * (totalE g + 2) ≤ fuel)
    (heq : dfsVisit g fuel node path visited recStack = (none, v2)) :
    visited ⊆ v2 ∧ node ∈ v2 ∧ v2 ⊆ univF g ∧ BlackInv g v2 recStack := by
  unfold dfsVisit at heq
  have hrem : (univF g \ insert node visited).card + 1 = (univF g \ visited).card :=
    remaining_succ hnu hnv
  have hlen : (lookupD g node).length ≤ totalE g := lookupD_len_le g node
  have hfuel2 : (univF g \ insert node visited).card * (totalE g + 2) +
      (lookupD g node).length + 1 ≤ fuel := by
    rw [← hrem] at hfuel
    have hexp : ((univF g \ insert node visited).card + 1) * (totalE g + 2) =
        (univF g \ insert node visited).card * (totalE g + 2) + (totalE g + 2) := by
      ring
    rw [hexp] at hfuel
    omega
  have hres := dfsNeighbors_complete g fuel (lookupD g node) (path ++ [node])
    (insert node visited) (insert node recStack) v2 (fun x hx => mem_lookupD_univ hx)
    (Finset.insert_subset_iff.mpr ⟨hnu, hvu⟩) (Finset.insert_subset_insert node hrv)
    (blackInv_insert_both hbi hnv) hfuel2 heq
  obtain ⟨hs1, hs2, hs3, hs4⟩ := hres
  have hnodev2 : node ∈ v2 := hs1 (Finset.mem_insert_self node visited)
  refine ⟨fun x hx => hs1 (Finset.mem_insert_of_mem hx), hnodev2, hs2, ?_⟩
  exact blackInv_finish hs3 hnodev2 (fun x hx => hs4 x hx)

lemma fcdLoop_none (g : AdjList) : ∀ (nodes : List String) (visited : Finset String),
    visited ⊆ univF g → BlackInv g visited ∅ →
    (∀ x ∈ nodes, x ∈ univF g) →
    fcdLoop g nodes visited = none →
    ∃ vfin : Finset String, visited ⊆ vfin ∧ vfin ⊆ univF g ∧ BlackInv g vfin ∅ ∧
      ∀ x ∈ nodes, x ∈ vfin := by
  intro nodes
  induction nodes with
  | nil =>
    intro visited hvu hbi _ _
    exact ⟨visited, Finset.Subset.refl _, hvu, hbi, by simp⟩
  | cons n rest ih =>
    intro visited hvu hbi hnu heq
    rw [fcdLoop] at heq
    by_cases hn : n ∈ visited
    · rw [if_neg (not_not_intro hn)] at heq
      obtain ⟨vfin, h1, h2, h3, h4⟩ :=
        ih visited hvu hbi (fun x hx => hnu x (List.mem_cons_of_mem n hx)) heq
      refine ⟨vfin, h1, h2, h3, ?_⟩
      intro x hx
      rcases List.mem_cons.mp hx with rfl | hx
      · exact h1 hn
      · exact h4 x hx
    · rw [if_pos hn] at heq
      rcases hv : dfsVisit g (fcdFuel g) n [] visited ∅ with ⟨oc, v1⟩
      rw [hv] at heq
      cases oc with
      | some c => exact Option.noConfusion heq
      | none =>
        have hfuel : (univF g \ visited).card * (totalE g + 2) ≤ fcdFuel g := by
          unfold fcdFuel
          have hc1 : (univF g \ visited).card ≤ (univF g).card :=
            Finset.card_le_card Finset.sdiff_subset
          have hc2 := Nat.mul_le_mul_right (totalE g + 2) hc1
          omega
        have hres := dfsVisit_complete g (fcdFuel g) n [] visited ∅ v1
          (hnu n (List.mem_cons_self n rest)) hn hvu (Finset.empty_subset _) hbi hfuel hv
        obtain ⟨h1, h2, h3, h4⟩ := hres
        obtain ⟨vfin, k1, k2, k3, k4⟩ :=
          ih v1 h3 h4 (fun x hx => hnu x (List.mem_cons_of_mem n hx)) heq
        refine ⟨vfin, h1.trans k1, k2, k3, ?_⟩
        intro x hx
        rcases List.mem_cons.mp hx with rfl | hx
        · exact k1 h2
        · exact k4 x hx

lemma fcd_none_acyclic (g : AdjList)
    (h : find_circular_dependencies g = none) : Acyclic g := by
  unfold find_circular_dependencies at h
  have hbi0 : BlackInv g ∅ ∅ :=
    ⟨fun b hb => (Finset.not_mem_empty b hb).elim,
      fun b hb => (Finset.not_mem_empty b hb).elim⟩
  obtain ⟨vfin, -, -, hbi, hall⟩ := fcdLoop_none g (g.map Prod.fst) ∅
    (Finset.empty_subset _) hbi0 (fun x hx => key_mem_univ hx) h
  intro n hcyc
  obtain ⟨x, hx, hr⟩ := hcyc
  exact hbi.2 n (hall n (edge_src_key hx)) (Finset.not_mem_empty n) ⟨x, hx, hr⟩

lemma fcd_some_good (g : AdjList) (c : List String)
    (h : find_circular_dependencies g = some c) : GoodCycle g c := by
  unfold find_circular_dependencies at h
  suffices hs : ∀ (nodes : List String) (visited : Finset String),
      fcdLoop g nodes visited = some c → GoodCycle g c from hs _ _ h
  intro nodes
  induction nodes with
  | nil =>
    intro visited h2
    rw [fcdLoop] at h2
    exact Option.noConfusion h2
  | cons n rest ih =>
    intro visited h2
    rw [fcdLoop] at h2
    by_cases hn : n ∈ visited
    · rw [if_neg (not_not_intro hn)] at h2
      exact ih _ h2
    · rw [if_pos hn] at h2
      rcases hv : dfsVisit g (fcdFuel g) n [] visited ∅ with ⟨oc, v1⟩
      rw [hv] at h2
      cases oc with
      | some c2 =>
        have hc : c2 = c := by injection h2
        exact hc ▸ dfsVisit_sound g (fcdFuel g) n visited ∅ c2 v1 hv rfl
      | none => exact ih _ h2

lemma chain'_head_last (g : AdjList) : ∀ (l : List String),
    List.Chain' (Edge g) l → ∀ hne : l ≠ [],
    Relation.ReflTransGen (Edge g) (l.head hne) (l.getLast hne) := by
  intro l
  induction l with
  | nil => intro _ hne; exact absurd rfl hne
  | cons a t ih =>
    intro hchain hne
    cases t with
    | nil => exact Relation.ReflTransGen.refl
    | cons b t2 =>
      have hparts := List.chain'_cons'.mp hchain
      have hedge : Edge g a b := hparts.1 b rfl
      rw [List.getLast_cons (by simp : (b :: t2) ≠ [])]
      exact Relation.ReflTransGen.head hedge (ih hparts.2 (by simp))

lemma goodCycle_not_acyclic {g : AdjList} {c : List String} (h : GoodCycle g c) :
    ¬ Acyclic g := by
  obtain ⟨hchain, hlen, hhl⟩ := h
  intro hac
  cases c with
  | nil => simp at hlen
  | cons a t =>
    cases t with
    | nil => simp at hlen
    | cons b t2 =>
      have hparts := List.chain'_cons'.mp hchain
      have hedge : Edge g a b := hparts.1 b rfl
      have hreach : Relation.ReflTransGen (Edge g) b ((b :: t2).getLast (by simp)) :=
        chain'_head_last g (b :: t2) hparts.2 (by simp)
      have hlast : (a :: b :: t2).getLast (by simp) = a := by
        rw [List.getLast?_eq_getLast (a :: b :: t2) (by simp)] at hhl
        have : some a = some ((a :: b :: t2).getLast (by simp)) := hhl
        injection this with hinj
        exact hinj.symm
      rw [List.getLast_cons (by simp : (b :: t2) ≠ [])] at hlast
      exact hac a ⟨b, hedge, hlast ▸ hreach⟩

/-- C2: for every dependency mapping, `find_circular_dependencies` returns
`none` exactly when the graph is acyclic, and any returned sequence links
consecutive elements by forward-mapping edges and starts and ends at the
same node. -/
theorem c2_cycle_detector (g : AdjList) :
    (find_circular_dependencies g = none ↔ Acyclic g) ∧
      ∀ c, find_circular_dependencies g = some c →
        List.Chain' (Edge g) c ∧ c.head? = c.getLast? := by
  constructor
  · constructor
    · exact fcd_none_acyclic g
    · intro hac
      cases hfcd : find_circular_dependencies g with
      | none => rfl
      | some c => exact absurd hac (goodCycle_not_acyclic (fcd_some_good g c hfcd))
  · intro c hc
    obtain ⟨h1, -, h3⟩ := fcd_some_good g c hc
    exact ⟨h1, h3⟩

/-- Witness for C2: on the concrete two-node circular graph the detector
returns `[a.c, b.c, a.c]`, and the theorem yields its chain property. -/
theorem c2_cycle_detector_witness :
    List.Chain' (Edge gCyc) ["a.c", "b.c", "a.c"] ∧
      (["a.c", "b.c", "a.c"] : List String).head? =
        (["a.c", "b.c", "a.c"] : List String).getLast? :=
  (c2_cycle_detector gCyc).2 ["a.c", "b.c", "a.c"] (by decide)

/-! ## C1: header-to-header edges -/

lemma mem_foldl_addEdge : ∀ (l : List (String × String)) (st : GState) (u v : String),
    (v ∈ lookupD (l.foldl addEdge st).dependencies u ↔
      (u, v) ∈ l ∨ v ∈ lookupD st.dependencies u) := by
  intro l
  induction l with
  | nil => intro st u v; simp
  | cons e rest ih =>
    intro st u v
    simp only [List.foldl_cons, List.mem_cons]
    rw [ih (addEdge st e) u v]
    have he : v ∈ lookupD (addEdge st e).dependencies u ↔
        (u = e.1 ∧ v = e.2) ∨ v ∈ lookupD st.dependencies u := mem_lookupD_adjAdd
    rw [he, Prod.ext_iff]
    tauto

lemma mem_applyEvents {l : List (String × String)} {u v : String} :
    v ∈ lookupD (applyEvents l).dependencies u ↔ (u, v) ∈ l := by
  unfold applyEvents
  rw [mem_foldl_addEdge l ⟨[], []⟩ u v]
  simp [lookupD_nil]

lemma buildEvents_src (m : FsModel) (u v : String) (h : (u, v) ∈ buildEvents m) :
    strEndsAny u [".c", ".S"] = true := by
  simp only [buildEvents, List.mem_flatMap] at h
  obtain ⟨kv, hkv, h⟩ := h
  unfold fileEvents at h
  split at h
  case isTrue hc =>
    simp only [List.mem_filterMap] at h
    obtain ⟨inc, hinc, h⟩ := h
    cases hr : resolve_include (find_source_files m.walk) m inc with
    | none =>
      rw [hr] at h
      exact Option.noConfusion (h : (none : Option (String × String)) = some (u, v))
    | some r =>
      rw [hr] at h
      have h2 : (if r ≠ kv.2 then some (kv.2, r) else none) = some (u, v) := h
      by_cases hne : r ≠ kv.2
      · rw [if_pos hne] at h2
        injection h2 with h2
        have hu : kv.2 = u := congrArg Prod.fst h2
        rw [← hu]
        exact hc
      · rw [if_neg hne] at h2
        exact Option.noConfusion h2
  case isFalse hc => exact absurd h (by simp)

/-- C1 (amended): only `.c`/`.S` files are ever parsed for includes, so every
edge of the built graph leaves a `.c` or `.S` file and header-to-header
edges are never recorded. -/
theorem c1_header_edges_amended (m : FsModel) (u v : String)
    (h : Edge (build_dependency_graph m).dependencies u v) :
    strEndsAny u [".c", ".S"] = true :=
  buildEvents_src m u v (mem_applyEvents.mp h)

/-- Witness for the amended C1: the concrete model has an edge, and its
source carries a compiled-source extension. -/
theorem c1_header_edges_amended_witness :
    Edge (build_dependency_graph mEdgeWitness).dependencies "a.c" "b.h" ∧
      strEndsAny "a.c" [".c", ".S"] = true :=
  ⟨by decide, c1_header_edges_amended mEdgeWitness "a.c" "b.h" (by decide)⟩

/-- Counterexample to C1 as stated: in scenario 2 the header `a.h` is
discovered, its text includes `b.h`, and `b.h` resolves to a discovered
header, yet the graph holds no `a.h -> b.h` edge and the cycle detector
reports no cycle instead of `[a.h, b.h, a.h]`. -/
theorem c1_header_edges_counterexample :
    (parse_includes (contentOf mScenario2 "a.h")).1 = ["b.h"] ∧
      resolve_include (find_source_files mScenario2.walk) mScenario2 "b.h" =
        some "b.h" ∧
      (find_source_files mScenario2.walk).lookup "a.h" = some "a.h" ∧
      ¬ Edge (build_dependency_graph mScenario2).dependencies "a.h" "b.h" ∧
      find_circular_dependencies (build_dependency_graph mScenario2).dependencies =
        none := by
  exact ⟨by decide, by decide, by decide, by decide, by decide⟩

/-! ## C5: exit behavior -/

lemma adjAdd_ne_nil (g : AdjList) (k v : String) : adjAdd g k v ≠ [] := by
  cases g with
  | nil => simp [adjAdd]
  | cons p rest =>
    obtain ⟨a, vs⟩ := p
    unfold adjAdd
    split <;> simp

lemma foldl_addEdge_parts_ne : ∀ (l : List (String × String)) (st : GState),
    (st.dependencies ≠ [] → (l.foldl addEdge st).dependencies ≠ []) ∧
      (st.reverse_deps ≠ [] → (l.foldl addEdge st).reverse_deps ≠ []) := by
  intro l
  induction l with
  | nil => intro st; exact ⟨id, id⟩
  | cons e rest ih =>
    intro st
    simp only [List.foldl_cons]
    constructor
    · intro _
      exact (ih (addEdge st e)).1 (adjAdd_ne_nil _ _ _)
    · intro _
      exact (ih (addEdge st e)).2 (adjAdd_ne_nil _ _ _)

lemma applyEvents_nil_iff (l : List (String × String)) :
    ((applyEvents l).dependencies = [] ↔ l = []) ∧
      ((applyEvents l).reverse_deps = [] ↔ l = []) := by
  cases l with
  | nil => simp [applyEvents]
  | cons e rest =>
    unfold applyEvents
    simp only [List.foldl_cons]
    constructor
    · constructor
      · intro h
        exact absurd h ((foldl_addEdge_parts_ne rest (addEdge ⟨[], []⟩ e)).1
          (adjAdd_ne_nil _ _ _))
      · intro h
        exact absurd h (by simp)
    · constructor
      · intro h
        exact absurd h ((foldl_addEdge_parts_ne rest (addEdge ⟨[], []⟩ e)).2
          (adjAdd_ne_nil _ _ _))
      · intro h
        exact absurd h (by simp)

lemma print_statistics_none_iff (files : List (String × String)) (d r : AdjList) :
    (print_statistics files d r = none ↔ d = [] ∨ r = []) := by
  unfold print_statistics pyMax
  cases d with
  | nil => simp
  | cons p d2 =>
    cases r with
    | nil => simp
    | cons q r2 => simp

/-- C5 (amended): the statistics step of `main` raises (uncaught
`ValueError`, a nonzero exit) exactly when the built forward mapping is
empty; empty discovery implies an empty mapping, but discovered files with
no edges also crash, so a nonzero exit is not confined to empty discovery. -/
theorem c5_exit_amended (m : FsModel) :
    (runStatistics m = none ↔ (build_dependency_graph m).dependencies = []) ∧
      (find_source_files m.walk = [] → (build_dependency_graph m).dependencies = []) := by
  constructor
  · have hiff := print_statistics_none_iff (find_source_files m.walk)
      (build_dependency_graph m).dependencies (build_dependency_graph m).reverse_deps
    have hd := applyEvents_nil_iff (buildEvents m)
    unfold runStatistics
    rw [hiff]
    constructor
    · rintro (h | h)
      · exact h
      · exact (hd.1.mpr ((hd.2.mp h)))
    · intro h
      exact Or.inl h
  · intro h
    have : buildEvents m = [] := by
      unfold buildEvents
      rw [h]
      rfl
    unfold build_dependency_graph
    rw [this]
    rfl

/-- Witness for the amended C5: a model with no discovery crashes, and so
does `mNoEdges`, which has a discovered file but no edges. -/
theorem c5_exit_amended_witness :
    runStatistics mEmpty = none ∧ runStatistics mNoEdges = none ∧
      (build_dependency_graph mEmpty).dependencies = [] :=
  ⟨(c5_exit_amended mEmpty).1.mpr ((c5_exit_amended mEmpty).2 (by decide)),
    (c5_exit_amended mNoEdges).1.mpr (by decide),
    (c5_exit_amended mEmpty).2 (by decide)⟩

/-- Counterexample to C5 as stated: `mNoEdges` discovers a source file, yet
the statistics step still fails (nonzero exit), so a nonzero exit is not
restricted to the no-source-files case. -/
theorem c5_exit_counterexample :
    find_source_files mNoEdges.walk ≠ [] ∧ runStatistics mNoEdges = none := by
  exact ⟨by decide, by decide⟩

/-! ## C10: the include regex accepts mismatched delimiters -/

lemma dropWhile_all_append {p : Char → Bool} : ∀ (ws t : List Char),
    (∀ x ∈ ws, p x = true) → List.dropWhile p (ws ++ t) = List.dropWhile p t := by
  intro ws
  induction ws with
  | nil => intro t _; rfl
  | cons w ws2 ih =>
    intro t hws
    rw [List.cons_append, List.dropWhile_cons, hws w (List.mem_cons_self w ws2)]
    simp only [if_true]
    exact ih t (fun x hx => hws x (List.mem_cons_of_mem w hx))

lemma takeWhile_stop {q : Char → Bool} : ∀ (name : List Char) (c : Char) (t : List Char),
    (∀ x ∈ name, q x = true) → q c = false →
    (name ++ c :: t).takeWhile q = name ∧ (name ++ c :: t).dropWhile q = c :: t := by
  intro name
  induction name with
  | nil =>
    intro c t _ hc
    constructor
    · rw [List.nil_append, List.takeWhile_cons, hc]
      rfl
    · rw [List.nil_append, List.dropWhile_cons, hc]
      rfl
  | cons a name2 ih =>
    intro c t hname hc
    have ha : q a = true := hname a (List.mem_cons_self a name2)
    have ihr := ih c t (fun x hx => hname x (List.mem_cons_of_mem a hx)) hc
    constructor
    · rw [List.cons_append, List.takeWhile_cons, ha]
      simp only [if_true]
      rw [ihr.1]
    · rw [List.cons_append, List.dropWhile_cons, ha]
      simp only [if_true]
      exact ihr.2

lemma mem_addIncl_self (acc : List String) (x : String) : x ∈ addIncl acc x := by
  unfold addIncl
  split
  · assumption
  · exact List.mem_append_right _ (List.mem_singleton.mpr rfl)

lemma mem_addIncl_of_mem (acc : List String) (x y : String) (h : x ∈ acc) :
    x ∈ addIncl acc y := by
  unfold addIncl
  split
  · exact h
  · exact List.mem_append_left _ h

lemma mem_plStep_of_mem (acc : List String) (line x : String) (h : x ∈ acc) :
    x ∈ plStep acc line := by
  unfold plStep
  cases matchInclude line with
  | none => exact h
  | some nm => exact mem_addIncl_of_mem acc x nm h

lemma mem_foldl_plStep : ∀ (lines : List String) (acc : List String) (x : String),
    x ∈ acc → x ∈ lines.foldl plStep acc := by
  intro lines
  induction lines with
  | nil => intro acc x h; exact h
  | cons l ls ih =>
    intro acc x h
    exact ih (plStep acc l) x (mem_plStep_of_mem acc l x h)

lemma mem_parseLines_of_match : ∀ (lines : List String) (acc : List String)
    (line nm : String), line ∈ lines → matchInclude line = some nm →
    nm ∈ lines.foldl plStep acc := by
  intro lines
  induction lines with
  | nil => intro acc line nm h; exact absurd h (List.not_mem_nil line)
  | cons l ls ih =>
    intro acc line nm hmem hmatch
    rcases List.mem_cons.mp hmem with rfl | hmem
    · refine mem_foldl_plStep ls (plStep acc line) nm ?_
      unfold plStep
      rw [hmatch]
      exact mem_addIncl_self acc nm
    · exact ih (plStep acc l) line nm hmem hmatch

/-- C10: a line that, after stripping, consists of `#include`, optional
whitespace, an opening delimiter, a nonempty delimiter-free name and a
closing delimiter (of either kind, matching or not) yields exactly that
name, and the name lands in the include set of any file containing the
line. -/
theorem c10_mismatched_delimiters (line : String) (ws name tl : List Char)
    (o c : Char) (lines1 lines2 : List String)
    (hstrip : pyStrip line.data = "#include".data ++ ws ++ o :: (name ++ c :: tl))
    (hws : ∀ x ∈ ws, isPySpace x = true)
    (ho : o = '<' ∨ o = '"')
    (hc : c = '>' ∨ c = '"')
    (hname : name ≠ [])
    (hnd : ∀ x ∈ name, isIncDelim x = false) :
    matchIncludeL line.data = some name ∧
      String.mk name ∈ (parse_includes (some (lines1 ++ line :: lines2))).1 := by
  have hobs : isPySpace o = false := by
    rcases ho with rfl | rfl <;> decide
  have hmatch : matchIncludeL line.data = some name := by
    unfold matchIncludeL
    rw [hstrip, List.append_assoc, dropStart_self_append]
    show matchRest (ws ++ o :: (name ++ c :: tl)) = some name
    unfold matchRest
    rw [dropWhile_all_append ws (o :: (name ++ c :: tl)) hws]
    have hdo : List.dropWhile isPySpace (o :: (name ++ c :: tl)) =
        o :: (name ++ c :: tl) := by
      rw [List.dropWhile_cons, hobs]
      simp
    rw [hdo, matchOpen, if_pos ho]
    have hq : ∀ x ∈ name, (!isIncDelim x) = true := by
      intro x hx
      rw [hnd x hx]
      rfl
    have hcq : (!isIncDelim c) = false := by
      rcases hc with rfl | rfl <;> decide
    have hts := takeWhile_stop name c tl hq hcq
    rw [hts.1, hts.2]
    cases name with
    | nil => exact absurd rfl hname
    | cons a name2 => rfl
  refine ⟨hmatch, ?_⟩
  unfold parse_includes
  simp only []
  refine mem_parseLines_of_match (lines1 ++ line :: lines2) [] line (String.mk name)
    (List.mem_append_right _ (List.mem_cons_self line lines2)) ?_
  unfold matchInclude
  rw [hmatch]
  rfl

/-! ## C3 and C9: the topological sorter -/

lemma lookup_append {β : Type} : ∀ (m1 m2 : List (String × β)) (k : String),
    (m1 ++ m2).lookup k = ((m1.lookup k).or (m2.lookup k)) := by
  intro m1
  induction m1 with
  | nil => intro m2 k; rfl
  | cons p rest ih =>
    intro m2 k
    obtain ⟨a, v⟩ := p
    by_cases hk : k = a
    · subst hk
      rw [List.cons_append, lookup_cons_self, lookup_cons_self]
      rfl
    · rw [List.cons_append, lookup_cons_ne k a _ _ hk, lookup_cons_ne k a _ _ hk, ih]

lemma lookup_eq_none_iff {β : Type} : ∀ (m : List (String × β)) (k : String),
    (m.lookup k = none ↔ k ∉ m.map Prod.fst) := by
  intro m
  induction m with
  | nil => intro k; simp [List.lookup]
  | cons p rest ih =>
    intro k
    obtain ⟨a, v⟩ := p
    by_cases hk : k = a
    · subst hk
      rw [lookup_cons_self]
      simp
    · rw [lookup_cons_ne k a _ _ hk, ih]
      simp [hk]

lemma lookup_eq_of_mem {β : Type} : ∀ {m : List (String × β)},
    (m.map Prod.fst).Nodup → ∀ {k : String} {d : β}, (k, d) ∈ m →
    m.lookup k = some d := by
  intro m
  induction m with
  | nil => intro _ k d h; exact absurd h (List.not_mem_nil _)
  | cons p rest ih =>
    intro hnd k d h
    obtain ⟨a, v⟩ := p
    rcases List.mem_cons.mp h with heq | hmem
    · injection heq with h1 h2
      subst h1
      subst h2
      exact lookup_cons_self _ _ _
    · have hka : k ≠ a := by
        intro hk
        subst hk
        have hx : k ∈ rest.map Prod.fst := List.mem_map_of_mem Prod.fst hmem
        exact (List.nodup_cons.mp hnd).1 hx
      rw [lookup_cons_ne k a _ _ hka]
      exact ih (List.nodup_cons.mp hnd).2 hmem

lemma lookupD_eq_of_mem {g : AdjList} (hnd : (g.map Prod.fst).Nodup)
    {kv : String × List String} (h : kv ∈ g) : lookupD g kv.1 = kv.2 := by
  unfold lookupD
  rw [lookup_eq_of_mem hnd (show (kv.1, kv.2) ∈ g from by simpa using h)]
  rfl

lemma lookupD_nodup {g : AdjList} (hwf : WFAdj g) (u : String) :
    (lookupD g u).Nodup := by
  unfold lookupD
  cases hl : List.lookup u g with
  | none => simp
  | some vs =>
    simp only [Option.getD_some]
    exact hwf.2 (u, vs) (lookup_mem hl)

lemma degOf_bumpDeg (m : DegMap) (k : String) (d : Int) (x : String) :
    degOf (bumpDeg m k d) x = if x = k then degOf m x + d else degOf m x := by
  induction m with
  | nil =>
    by_cases hx : x = k
    · subst hx
      simp [bumpDeg, degOf, lookup_cons_self, List.lookup]
    · have hb : (x == k) = false := beq_eq_false_iff_ne.mpr hx
      simp [bumpDeg, degOf, hx, List.lookup, hb]
  | cons p rest ih =>
    obtain ⟨a, v⟩ := p
    by_cases hak : a = k
    · subst hak
      by_cases hx : x = a
      · subst hx
        simp [bumpDeg, degOf, lookup_cons_self]
      · simp [bumpDeg, degOf, lookup_cons_ne x a _ _ hx, hx]
    · by_cases hx : x = a
      · subst hx
        have hxk : x ≠ k := hak
        simp [bumpDeg, hak, degOf, lookup_cons_self, hxk]
      · have h1 : degOf ((a, v) :: bumpDeg rest k d) x = degOf (bumpDeg rest k d) x := by
          simp [degOf, lookup_cons_ne x a _ _ hx]
        simp only [bumpDeg, if_neg hak]
        rw [h1, ih]
        have h2 : degOf ((a, v) :: rest) x = degOf rest x := by
          simp [degOf, lookup_cons_ne x a _ _ hx]
        by_cases hk : x = k
        · subst hk
          rw [if_pos rfl, if_pos rfl, h2]
        · rw [if_neg hk, if_neg hk, h2]

lemma keys_bumpDeg (m : DegMap) (k : String) (d : Int) :
    (bumpDeg m k d).map Prod.fst =
      if k ∈ m.map Prod.fst then m.map Prod.fst else m.map Prod.fst ++ [k] := by
  induction m with
  | nil => simp [bumpDeg]
  | cons p rest ih =>
    obtain ⟨a, v⟩ := p
    by_cases hak : a = k
    · subst hak
      simp [bumpDeg]
    · have hka : k ≠ a := fun h => hak h.symm
      simp only [bumpDeg, if_neg hak, List.map_cons, ih]
      by_cases hk : k ∈ rest.map Prod.fst
      · simp [hk, hka]
      · simp [hk, hka]

lemma keys_ensureKey (m : DegMap) (k : String) :
    (ensureKey m k).map Prod.fst =
      if k ∈ m.map Prod.fst then m.map Prod.fst else m.map Prod.fst ++ [k] := by
  unfold ensureKey
  by_cases h : k ∈ m.map Prod.fst
  · have : (m.lookup k).isSome := by
      cases hl : m.lookup k with
      | none => exact absurd ((lookup_eq_none_iff m k).mp hl) (not_not_intro h)
      | some v => rfl
    simp [this, h]
  · have : m.lookup k = none := (lookup_eq_none_iff m k).mpr h
    simp [this, h]

lemma keys_augment_nodup {l : List String} {k : String} (h : l.Nodup) :
    (if k ∈ l then l else l ++ [k]).Nodup := by
  by_cases hk : k ∈ l
  · simpa [hk] using h
  · rw [if_neg hk]
    simp [List.nodup_append, h, hk]

lemma keys_augment_sub {l : List String} {k x : String} (h : x ∈ l) :
    x ∈ (if k ∈ l then l else l ++ [k]) := by
  split
  · exact h
  · exact List.mem_append_left _ h

lemma keys_augment_self {l : List String} {k : String} :
    k ∈ (if k ∈ l then l else l ++ [k]) := by
  split
  · assumption
  · exact List.mem_append_right _ (List.mem_singleton.mpr rfl)

lemma keys_bumpAll_nodup : ∀ (deps : List String) (m : DegMap),
    (m.map Prod.fst).Nodup → ((bumpAll m deps).map Prod.fst).Nodup := by
  intro deps
  induction deps with
  | nil => intro m h; exact h
  | cons dep rest ih =>
    intro m h
    show ((bumpAll (bumpDeg m dep 1) rest).map Prod.fst).Nodup
    refine ih _ ?_
    rw [keys_bumpDeg]
    exact keys_augment_nodup h

lemma keys_bumpAll_sub : ∀ (deps : List String) (m : DegMap) (x : String),
    x ∈ m.map Prod.fst → x ∈ (bumpAll m deps).map Prod.fst := by
  intro deps
  induction deps with
  | nil => intro m x h; exact h
  | cons dep rest ih =>
    intro m x h
    refine ih _ x ?_
    rw [keys_bumpDeg]
    exact keys_augment_sub h

lemma keys_bumpAll_mem : ∀ (deps : List String) (m : DegMap) (v : String),
    v ∈ deps → v ∈ (bumpAll m deps).map Prod.fst := by
  intro deps
  induction deps with
  | nil => intro m v h; exact absurd h (List.not_mem_nil v)
  | cons dep rest ih =>
    intro m v h
    rcases List.mem_cons.mp h with rfl | h
    · refine keys_bumpAll_sub rest _ v ?_
      rw [keys_bumpDeg]
      exact keys_augment_self
    · exact ih _ v h

lemma keys_inDegStep_nodup {m : DegMap} (kv : String × List String)
    (h : (m.map Prod.fst).Nodup) : ((inDegStep m kv).map Prod.fst).Nodup := by
  refine keys_bumpAll_nodup kv.2 _ ?_
  rw [keys_ensureKey]
  exact keys_augment_nodup h

lemma keys_inDegStep_sub {m : DegMap} (kv : String × List String) (x : String)
    (h : x ∈ m.map Prod.fst) : x ∈ (inDegStep m kv).map Prod.fst := by
  refine keys_bumpAll_sub kv.2 _ x ?_
  rw [keys_ensureKey]
  exact keys_augment_sub h

lemma keys_foldl_inDegStep_sub : ∀ (entries : List (String × List String))
    (m : DegMap) (x : String), x ∈ m.map Prod.fst →
    x ∈ (entries.foldl inDegStep m).map Prod.fst := by
  intro entries
  induction entries with
  | nil => intro m x h; exact h
  | cons kv rest ih =>
    intro m x h
    exact ih _ x (keys_inDegStep_sub kv x h)

lemma kahnNodes_nodup (g : AdjList) : (kahnNodes g).Nodup := by
  unfold kahnNodes inDegrees
  suffices hs : ∀ (entries : List (String × List String)) (m : DegMap),
      (m.map Prod.fst).Nodup → ((entries.foldl inDegStep m).map Prod.fst).Nodup from
    hs g [] (by simp)
  intro entries
  induction entries with
  | nil => intro m h; exact h
  | cons kv rest ih => intro m h; exact ih _ (keys_inDegStep_nodup kv h)

lemma mem_kahnNodes_key {g : AdjList} {kv : String × List String} (h : kv ∈ g) :
    kv.1 ∈ kahnNodes g ∧ ∀ v ∈ kv.2, v ∈ kahnNodes g := by
  unfold kahnNodes inDegrees
  suffices hs : ∀ (entries : List (String × List String)) (m : DegMap),
      kv ∈ entries →
      kv.1 ∈ (entries.foldl inDegStep m).map Prod.fst ∧
        ∀ v ∈ kv.2, v ∈ (entries.foldl inDegStep m).map Prod.fst from hs g [] h
  intro entries
  induction entries with
  | nil => intro m h2; exact absurd h2 (List.not_mem_nil kv)
  | cons e rest ih =>
    intro m h2
    rcases List.mem_cons.mp h2 with rfl | h2
    · constructor
      · refine keys_foldl_inDegStep_sub rest _ kv.1 ?_
        refine keys_bumpAll_sub kv.2 _ kv.1 ?_
        rw [keys_ensureKey]
        exact keys_augment_self
      · intro v hv
        exact keys_foldl_inDegStep_sub rest _ v (keys_bumpAll_mem kv.2 _ v hv)
    · exact ih _ h2

lemma degOf_bumpAll : ∀ (deps : List String) (m : DegMap) (n : String),
    degOf (bumpAll m deps) n = degOf m n + (deps.count n : Int) := by
  intro deps
  induction deps with
  | nil => intro m n; simp [bumpAll]
  | cons dep rest ih =>
    intro m n
    show degOf (bumpAll (bumpDeg m dep 1) rest) n = _
    rw [ih, degOf_bumpDeg, List.count_cons]
    by_cases hn : n = dep
    · subst hn
      rw [if_pos rfl, if_pos (beq_self_eq_true n)]
      push_cast
      ring
    · have hdn : (dep == n) = false := beq_eq_false_iff_ne.mpr (fun h => hn h.symm)
      rw [if_neg hn, if_neg (by rw [hdn]; simp)]
      push_cast
      ring

lemma degOf_ensureKey (m : DegMap) (k n : String) :
    degOf (ensureKey m k) n = degOf m n := by
  unfold ensureKey
  split
  · rfl
  · unfold degOf
    rw [lookup_append]
    cases hl : m.lookup n with
    | some d => rfl
    | none =>
      by_cases hk : n = k
      · subst hk
        simp [lookup_cons_self, hl, List.lookup]
      · have hb : (n == k) = false := beq_eq_false_iff_ne.mpr hk
        simp [hl, List.lookup, hb]

lemma count_nodup_mem {l : List String} {n : String} (h : l.Nodup) :
    (l.count n : Int) = if n ∈ l then 1 else 0 := by
  by_cases hn : n ∈ l
  · rw [List.count_eq_one_of_mem h hn, if_pos hn]
    exact Nat.cast_one
  · rw [List.count_eq_zero.mpr hn, if_neg hn]
    rfl

lemma degOf_inDegrees (g : AdjList) (hadj : ∀ kv ∈ g, kv.2.Nodup) (n : String) :
    degOf (inDegrees g) n =
      ((g.filter (fun kv => decide (n ∈ kv.2))).length : Int) := by
  unfold inDegrees
  suffices hs : ∀ (entries : List (String × List String)) (m : DegMap),
      (∀ kv ∈ entries, kv.2.Nodup) →
      degOf (entries.foldl inDegStep m) n =
        degOf m n + ((entries.filter (fun kv => decide (n ∈ kv.2))).length : Int) by
    rw [hs g [] hadj]
    simp [degOf, List.lookup]
  intro entries
  induction entries with
  | nil => intro m _; simp [degOf]
  | cons kv rest ih =>
    intro m hnd
    rw [List.foldl_cons, ih _ (fun x hx => hnd x (List.mem_cons_of_mem kv hx))]
    show degOf (inDegStep m kv) n + _ = _
    unfold inDegStep
    rw [degOf_bumpAll, degOf_ensureKey,
      count_nodup_mem (hnd kv (List.mem_cons_self kv rest)), List.filter_cons]
    by_cases hm : n ∈ kv.2
    · rw [if_pos hm, if_pos (decide_eq_true hm), List.length_cons]
      push_cast
      ring
    · rw [if_neg hm, if_neg (by simp [hm])]
      ring

lemma preds_card_eq (g : AdjList) (hwf : WFAdj g) (n : String) :
    ((preds g n).card : Int) =
      ((g.filter (fun kv => decide (n ∈ kv.2))).length : Int) := by
  unfold preds
  have h1 : (g.map Prod.fst).toFinset.filter (fun u => Edge g u n) =
      ((g.map Prod.fst).filter (fun u => decide (Edge g u n))).toFinset := by
    rw [List.toFinset_filter]
    congr 1
    ext u
    simp
  rw [h1, List.toFinset_card_of_nodup
    (List.Nodup.sublist (List.filter_sublist _) hwf.1)]
  rw [List.filter_map, List.length_map]
  congr 2
  refine List.filter_congr ?_
  intro kv hkv
  simp only [Function.comp_apply]
  have he : Edge g kv.1 n ↔ n ∈ kv.2 := by
    unfold Edge
    rw [lookupD_eq_of_mem hwf.1 hkv]
  simp [he]

lemma degOf_inDegrees_preds (g : AdjList) (hwf : WFAdj g) (n : String) :
    degOf (inDegrees g) n = ((preds g n).card : Int) := by
  rw [degOf_inDegrees g hwf.2 n, preds_card_eq g hwf n]

lemma mem_preds {g : AdjList} {n u : String} : u ∈ preds g n ↔ Edge g u n := by
  unfold preds
  rw [Finset.mem_filter]
  constructor
  · exact fun h => h.2
  · exact fun h => ⟨List.mem_toFinset.mpr (edge_src_key h), h⟩

lemma key_in_kahnNodes {g : AdjList} {u : String} (h : u ∈ g.map Prod.fst) :
    u ∈ kahnNodes g := by
  obtain ⟨kv, hkv, heq⟩ := List.mem_map.mp h
  exact heq ▸ (mem_kahnNodes_key hkv).1

lemma target_in_kahnNodes {g : AdjList} {node z : String} (hz : z ∈ lookupD g node) :
    z ∈ kahnNodes g := by
  unfold lookupD at hz
  cases hl : List.lookup node g with
  | none => rw [hl] at hz; simp at hz
  | some vs =>
    rw [hl] at hz
    simp only [Option.getD_some] at hz
    exact (mem_kahnNodes_key (lookup_mem hl)).2 z hz

lemma decStep_fst (acc : DegMap × List String) (dep : String) :
    (decStep acc dep).1 = bumpDeg acc.1 dep (-1) := by
  unfold decStep
  split <;> rfl

lemma decStep_snd (acc : DegMap × List String) (dep : String) :
    (decStep acc dep).2 =
      if degOf (bumpDeg acc.1 dep (-1)) dep = 0 then acc.2 ++ [dep] else acc.2 := by
  unfold decStep
  split <;> rfl

lemma decNeighbors_spec : ∀ (deps : List String) (degs : DegMap) (zs0 : List String),
    deps.Nodup →
    (∀ x, degOf (deps.foldl decStep (degs, zs0)).1 x =
        degOf degs x - (if x ∈ deps then 1 else 0)) ∧
      (deps.foldl decStep (degs, zs0)).2 =
        zs0 ++ deps.filter (fun dep => degOf degs dep == 1) := by
  intro deps
  induction deps with
  | nil => intro degs zs0 _; refine ⟨fun x => by simp, by simp⟩
  | cons dep rest ih =>
    intro degs zs0 hnd
    have hdeprest : dep ∉ rest := (List.nodup_cons.mp hnd).1
    have hrest : rest.Nodup := (List.nodup_cons.mp hnd).2
    rw [List.foldl_cons]
    have hfst : (decStep (degs, zs0) dep).1 = bumpDeg degs dep (-1) := decStep_fst _ _
    have hval2 : ∀ x, degOf (decStep (degs, zs0) dep).1 x =
        if x = dep then degOf degs x - 1 else degOf degs x := by
      intro x
      rw [hfst, degOf_bumpDeg]
      by_cases hx : x = dep
      · rw [if_pos hx, if_pos hx]
        ring
      · rw [if_neg hx, if_neg hx]
    obtain ⟨ih1, ih2⟩ := ih (decStep (degs, zs0) dep).1 (decStep (degs, zs0) dep).2 hrest
    have hresteq : (rest.foldl decStep ((decStep (degs, zs0) dep).1,
        (decStep (degs, zs0) dep).2)).1 = (rest.foldl decStep (decStep (degs, zs0) dep)).1 := rfl
    constructor
    · intro x
      rw [show rest.foldl decStep (decStep (degs, zs0) dep) =
        rest.foldl decStep ((decStep (degs, zs0) dep).1, (decStep (degs, zs0) dep).2) from rfl]
      rw [ih1 x, hval2 x]
      by_cases hx : x = dep
      · subst hx
        rw [if_pos rfl, if_neg hdeprest, if_pos (List.mem_cons_self x rest)]
        ring
      · rw [if_neg hx]
        by_cases hxr : x ∈ rest
        · rw [if_pos hxr, if_pos (List.mem_cons_of_mem dep hxr)]
        · rw [if_neg hxr, if_neg (by
            intro hc
            rcases List.mem_cons.mp hc with rfl | hc
            · exact hx rfl
            · exact hxr hc)]
    · rw [show rest.foldl decStep (decStep (degs, zs0) dep) =
        rest.foldl decStep ((decStep (degs, zs0) dep).1, (decStep (degs, zs0) dep).2) from rfl]
      rw [ih2]
      have hfilter : rest.filter (fun d => degOf (decStep (degs, zs0) dep).1 d == 1) =
          rest.filter (fun d => degOf degs d == 1) := by
        refine List.filter_congr ?_
        intro d hd
        have hddep : d ≠ dep := fun hc => hdeprest (hc ▸ hd)
        rw [hval2 d, if_neg hddep]
      rw [hfilter, decStep_snd]
      have hcond : degOf (bumpDeg (degs, zs0).1 dep (-1)) dep = degOf degs dep - 1 := by
        rw [degOf_bumpDeg, if_pos rfl]
        show degOf degs dep + (-1) = degOf degs dep - 1
        ring
      rw [List.filter_cons]
      by_cases h1 : degOf degs dep = 1
      · rw [if_pos (by rw [hcond, h1]; decide), if_pos (by simp [h1]), List.append_assoc]
        rfl
      · rw [if_neg (by rw [hcond]; omega), if_neg (by simp [h1])]

lemma sumToNat_bumpDeg (m : DegMap) (k : String) :
    ((bumpDeg m k (-1)).map (fun p => p.2.toNat)).sum ≤
        (m.map (fun p => p.2.toNat)).sum ∧
      (degOf m k = 1 →
        ((bumpDeg m k (-1)).map (fun p => p.2.toNat)).sum + 1 ≤
          (m.map (fun p => p.2.toNat)).sum) := by
  induction m with
  | nil =>
    constructor
    · simp [bumpDeg]
    · intro h
      simp [degOf, List.lookup] at h
  | cons p rest ih =>
    obtain ⟨a, x⟩ := p
    by_cases hak : a = k
    · subst hak
      have hb : bumpDeg ((a, x) :: rest) a (-1) = (a, x + (-1)) :: rest := by
        unfold bumpDeg
        rw [if_pos rfl]
      constructor
      · rw [hb]
        simp only [List.map_cons, List.sum_cons]
        omega
      · intro h
        have hx : x = 1 := by
          have hda : degOf ((a, x) :: rest) a = x := by simp [degOf, lookup_cons_self]
          omega
        subst hx
        rw [hb]
        simp only [List.map_cons, List.sum_cons]
        omega
    · have hb : bumpDeg ((a, x) :: rest) k (-1) = (a, x) :: bumpDeg rest k (-1) := by
        show (if a = k then (a, x + (-1)) :: rest else (a, x) :: bumpDeg rest k (-1)) =
          (a, x) :: bumpDeg rest k (-1)
        rw [if_neg hak]
      constructor
      · rw [hb]
        simp only [List.map_cons, List.sum_cons]
        have := ih.1
        omega
      · intro h
        have hd : degOf rest k = 1 := by
          have heq2 : degOf ((a, x) :: rest) k = degOf rest k := by
            have hka : k ≠ a := fun hc => hak hc.symm
            simp [degOf, lookup_cons_ne k a _ _ hka]
          omega
        rw [hb]
        simp only [List.map_cons, List.sum_cons]
        have := ih.2 hd
        omega

lemma decNeighbors_measure : ∀ (deps : List String) (degs : DegMap) (zs0 : List String),
    ((deps.foldl decStep (degs, zs0)).1.map (fun p => p.2.toNat)).sum +
        (deps.foldl decStep (degs, zs0)).2.length ≤
      (degs.map (fun p => p.2.toNat)).sum + zs0.length := by
  intro deps
  induction deps with
  | nil => intro degs zs0; simp
  | cons dep rest ih =>
    intro degs zs0
    rw [List.foldl_cons]
    rw [show rest.foldl decStep (decStep (degs, zs0) dep) =
      rest.foldl decStep ((decStep (degs, zs0) dep).1, (decStep (degs, zs0) dep).2) from rfl]
    have hfst : (decStep (degs, zs0) dep).1 = bumpDeg degs dep (-1) := decStep_fst _ _
    have hsnd : (decStep (degs, zs0) dep).2 =
        if degOf (bumpDeg degs dep (-1)) dep = 0 then zs0 ++ [dep] else zs0 :=
      decStep_snd _ _
    rw [hfst, hsnd]
    have hsb := sumToNat_bumpDeg degs dep
    by_cases h0 : degOf (bumpDeg degs dep (-1)) dep = 0
    · rw [if_pos h0]
      have hih := ih (bumpDeg degs dep (-1)) (zs0 ++ [dep])
      have h1 : degOf degs dep = 1 := by
        have hdb := degOf_bumpDeg degs dep (-1) dep
        rw [if_pos rfl] at hdb
        omega
      have h2 := hsb.2 h1
      simp only [List.length_append, List.length_singleton] at hih
      omega
    · rw [if_neg h0]
      have hih := ih (bumpDeg degs dep (-1)) zs0
      have h2 := hsb.1
      omega

/-- Witness for C10: both mismatched forms of the claim, `#include "x.h>`
and `#include<x.h"`, are accepted and yield `x.h`. -/
theorem c10_mismatched_delimiters_witness :
    (matchIncludeL "#include \"x.h>".data = some "x.h".data ∧
      String.mk "x.h".data ∈
        (parse_includes (some ([] ++ "#include \"x.h>" :: []))).1) ∧
      (matchIncludeL "#include<x.h\"".data = some "x.h".data ∧
        String.mk "x.h".data ∈
          (parse_includes (some ([] ++ "#include<x.h\"" :: []))).1) :=
  ⟨c10_mismatched_delimiters "#include \"x.h>" [' '] "x.h".data [] '"' '>' [] []
      (by decide) (by decide) (Or.inr rfl) (Or.inl rfl) (by decide) (by decide),
    c10_mismatched_delimiters "#include<x.h\"" [] "x.h".data [] '<' '"' [] []
      (by decide) (by decide) (Or.inl rfl) (Or.inr rfl) (by decide) (by decide)⟩

lemma inter_insert_card (s t : Finset String) (a : String) (ha : a ∉ t) :
    (s ∩ insert a t).card = (s ∩ t).card + (if a ∈ s then 1 else 0) := by
  by_cases h : a ∈ s
  · rw [if_pos h]
    have hins : s ∩ insert a t = insert a (s ∩ t) := by
      ext x
      simp only [Finset.mem_inter, Finset.mem_insert]
      constructor
      · rintro ⟨hxs, hx | hxt⟩
        · exact Or.inl hx
        · exact Or.inr ⟨hxs, hxt⟩
      · rintro (rfl | ⟨hxs, hxt⟩)
        · exact ⟨h, Or.inl rfl⟩
        · exact ⟨hxs, Or.inr hxt⟩
    rw [hins, Finset.card_insert_of_not_mem (fun hc => ha (Finset.mem_inter.mp hc).2)]
  · rw [if_neg h]
    congr 1
    ext x
    simp only [Finset.mem_inter, Finset.mem_insert]
    constructor
    · rintro ⟨hxs, hx | hxt⟩
      · exact absurd (hx ▸ hxs) h
      · exact ⟨hxs, hxt⟩
    · exact fun hx => ⟨hx.1, Or.inr hx.2⟩

lemma kahn_step (g : AdjList) (hwf : WFAdj g) {degs : DegMap} {node : String}
    {rest result : List String} (inv : KInv g degs (node :: rest) result) :
    KInv g (decNeighbors degs (lookupD g node)).1
      (rest ++ (decNeighbors degs (lookupD g node)).2) (result ++ [node]) := by
  have hnd : (lookupD g node).Nodup := lookupD_nodup hwf node
  obtain ⟨hval, hsnd⟩ := decNeighbors_spec (lookupD g node) degs [] hnd
  have hval2 : ∀ x, degOf (decNeighbors degs (lookupD g node)).1 x =
      degOf degs x - (if x ∈ lookupD g node then 1 else 0) := hval
  have hzs : (decNeighbors degs (lookupD g node)).2 =
      (lookupD g node).filter (fun dep => degOf degs dep == 1) := hsnd
  have hzmem : ∀ x, x ∈ (decNeighbors degs (lookupD g node)).2 ↔
      x ∈ lookupD g node ∧ degOf degs x = 1 := by
    intro x
    rw [hzs, List.mem_filter]
    simp [beq_iff_eq]
  have hnodeq : node ∉ result := inv.disj node (List.mem_cons_self node rest)
  have hnodedeg : degOf degs node ≤ 0 :=
    inv.seenNonpos node (Or.inl (List.mem_cons_self node rest))
  have hqp_node : preds g node ⊆ result.toFinset :=
    inv.qPreds node (List.mem_cons_self node rest)
  have hnotR : node ∉ result.toFinset := fun hc => hnodeq (List.mem_toFinset.mp hc)
  have hmemR2 : ∀ x, x ∈ result ++ [node] ↔ x ∈ result ∨ x = node := by
    intro x
    rw [List.mem_append, List.mem_singleton]
  have hR2 : (result ++ [node]).toFinset = insert node result.toFinset := by
    ext x
    simp [or_comm]
  have hite : ∀ x, (0 : Int) ≤ if x ∈ lookupD g node then 1 else 0 := by
    intro x
    split <;> omega
  have hiff : ∀ x, x ∈ lookupD g node ↔ node ∈ preds g x := by
    intro x
    rw [mem_preds]
    exact Iff.rfl
  refine ⟨?_, ?_, ?_, ?_, ?_, ?_, ?_, ?_, ?_, ?_⟩
  · intro n
    rw [hval2 n, inv.val n, hR2,
      inter_insert_card (preds g n) result.toFinset node hnotR]
    by_cases hmem : n ∈ lookupD g node
    · rw [if_pos hmem, if_pos ((hiff n).mp hmem)]
      push_cast
      ring
    · rw [if_neg hmem, if_neg (fun hc => hmem ((hiff n).mpr hc))]
      push_cast
      ring
  · rw [List.nodup_append]
    exact ⟨inv.resNodup, List.nodup_singleton node,
      fun x hx hx2 => hnodeq ((List.mem_singleton.mp hx2) ▸ hx)⟩
  · rw [List.nodup_append]
    refine ⟨(List.nodup_cons.mp inv.qNodup).2, ?_, ?_⟩
    · rw [hzs]
      exact hnd.filter _
    · intro x hxr hxz
      have h1 : degOf degs x = 1 := ((hzmem x).mp hxz).2
      have h2 : degOf degs x ≤ 0 :=
        inv.seenNonpos x (Or.inl (List.mem_cons_of_mem node hxr))
      omega
  · intro x hx hx2
    have hx3 := (hmemR2 x).mp hx2
    rcases List.mem_append.mp hx with hxr | hxz
    · rcases hx3 with hxres | rfl
      · exact inv.disj x (List.mem_cons_of_mem node hxr) hxres
      · exact (List.nodup_cons.mp inv.qNodup).1 hxr
    · have h1 : degOf degs x = 1 := ((hzmem x).mp hxz).2
      rcases hx3 with hxres | rfl
      · have h2 := inv.seenNonpos x (Or.inr hxres)
        omega
      · omega
  · intro x hx
    rcases List.mem_append.mp hx with hxr | hxz
    · exact inv.qSub x (List.mem_cons_of_mem node hxr)
    · exact target_in_kahnNodes ((hzmem x).mp hxz).1
  · intro x hx
    rcases (hmemR2 x).mp hx with hxres | rfl
    · exact inv.resSub x hxres
    · exact inv.qSub _ (List.mem_cons_self _ rest)
  · intro n hn
    rw [hval2 n]
    rcases hn with hn | hn
    · rcases List.mem_append.mp hn with hxr | hxz
      · have h2 := inv.seenNonpos n (Or.inl (List.mem_cons_of_mem node hxr))
        have h3 := hite n
        omega
      · obtain ⟨hd, hone⟩ := (hzmem n).mp hxz
        rw [if_pos hd]
        omega
    · rcases (hmemR2 n).mp hn with hxres | rfl
      · have h2 := inv.seenNonpos n (Or.inr hxres)
        have h3 := hite n
        omega
      · have h3 := hite n
        omega
  · intro n hkn hnp
    rw [hval2 n] at hnp
    by_cases hd : n ∈ lookupD g node
    · rw [if_pos hd] at hnp
      by_cases h1 : degOf degs n ≤ 0
      · rcases inv.nonposSeen n hkn h1 with hq | hr
        · rcases List.mem_cons.mp hq with rfl | hq2
          · exact Or.inr ((hmemR2 n).mpr (Or.inr rfl))
          · exact Or.inl (List.mem_append_left _ hq2)
        · exact Or.inr (List.mem_append_left _ hr)
      · have h2 : degOf degs n = 1 := by omega
        exact Or.inl (List.mem_append_right _ ((hzmem n).mpr ⟨hd, h2⟩))
    · rw [if_neg hd] at hnp
      have h1 : degOf degs n ≤ 0 := by omega
      rcases inv.nonposSeen n hkn h1 with hq | hr
      · rcases List.mem_cons.mp hq with rfl | hq2
        · exact Or.inr ((hmemR2 n).mpr (Or.inr rfl))
        · exact Or.inl (List.mem_append_left _ hq2)
      · exact Or.inr (List.mem_append_left _ hr)
  · intro n hn
    rw [hR2]
    rcases List.mem_append.mp hn with hxr | hxz
    · exact (inv.qPreds n (List.mem_cons_of_mem node hxr)).trans
        (Finset.subset_insert node _)
    · obtain ⟨hd, h1⟩ := (hzmem n).mp hxz
      have hnodeP : node ∈ preds g n := (hiff n).mp hd
      have hvn := inv.val n
      have hle : (preds g n ∩ result.toFinset).card ≤ (preds g n).card :=
        Finset.card_le_card Finset.inter_subset_left
      have hcard : (preds g n ∩ result.toFinset).card + 1 = (preds g n).card := by
        omega
      intro u hu
      rw [Finset.mem_insert]
      by_cases hur : u ∈ result.toFinset
      · exact Or.inr hur
      · left
        by_contra hune
        have hsd : (preds g n \ result.toFinset).card =
            (preds g n).card - (preds g n ∩ result.toFinset).card := by
          rw [← Finset.sdiff_inter_self_left]
          exact Finset.card_sdiff Finset.inter_subset_left
        have hcard2 : (preds g n \ result.toFinset).card = 1 := by omega
        have hmem1 : node ∈ preds g n \ result.toFinset :=
          Finset.mem_sdiff.mpr ⟨hnodeP, hnotR⟩
        have hmem2 : u ∈ preds g n \ result.toFinset :=
          Finset.mem_sdiff.mpr ⟨hu, hur⟩
        obtain ⟨a, ha⟩ := Finset.card_eq_one.mp hcard2
        rw [ha, Finset.mem_singleton] at hmem1 hmem2
        exact hune (hmem2.trans hmem1.symm)
  · intro v hv u hu
    rcases (hmemR2 v).mp hv with hvres | rfl
    · obtain ⟨humem, hidx⟩ := inv.resOrder v hvres u hu
      refine ⟨List.mem_append_left _ humem, ?_⟩
      rw [List.indexOf_append_of_mem humem, List.indexOf_append_of_mem hvres]
      exact hidx
    · have hures : u ∈ result := List.mem_toFinset.mp (hqp_node hu)
      refine ⟨List.mem_append_left _ hures, ?_⟩
      rw [List.indexOf_append_of_mem hures, List.indexOf_append_of_not_mem hnodeq]
      have hlt : result.indexOf u < result.length :=
        List.indexOf_lt_length.mpr hures
      simp only [List.indexOf_cons_self]
      omega

lemma kahnLoop_spec (g : AdjList) (hwf : WFAdj g) : ∀ (fuel : Nat) (degs : DegMap)
    (queue result : List String), KInv g degs queue result →
    kahnMeasure degs queue < fuel →
    ∃ degs2, KInv g degs2 [] (kahnLoop g fuel degs queue result) := by
  intro fuel
  induction fuel with
  | zero => intro degs queue result _ hm; exact absurd hm (by omega)
  | succ f ih =>
    intro degs queue result inv hm
    cases queue with
    | nil =>
      show ∃ degs2, KInv g degs2 [] result
      exact ⟨degs, inv⟩
    | cons node rest =>
      show ∃ degs2, KInv g degs2 []
        (kahnLoop g f (decNeighbors degs (lookupD g node)).1
          (rest ++ (decNeighbors degs (lookupD g node)).2) (result ++ [node]))
      refine ih (decNeighbors degs (lookupD g node)).1
        (rest ++ (decNeighbors degs (lookupD g node)).2) (result ++ [node])
        (kahn_step g hwf inv) ?_
      have hdec : ((decNeighbors degs (lookupD g node)).1.map
            (fun p => p.2.toNat)).sum +
          (decNeighbors degs (lookupD g node)).2.length ≤
          (degs.map (fun p => p.2.toNat)).sum + ([] : List String).length :=
        decNeighbors_measure (lookupD g node) degs []
      simp only [List.length_nil] at hdec
      unfold kahnMeasure at hm ⊢
      rw [List.length_append]
      rw [List.length_cons] at hm
      omega

lemma kahn_init (g : AdjList) (hwf : WFAdj g) :
    KInv g (inDegrees g)
      (((inDegrees g).filter (fun p => p.2 == 0)).map Prod.fst) [] := by
  have hkeys : ((inDegrees g).map Prod.fst).Nodup := kahnNodes_nodup g
  have hdeg0 : ∀ x ∈ ((inDegrees g).filter (fun p => p.2 == 0)).map Prod.fst,
      degOf (inDegrees g) x = 0 ∧ x ∈ kahnNodes g := by
    intro x hx
    obtain ⟨p, hp, heq⟩ := List.mem_map.mp hx
    subst heq
    have hpmem : p ∈ inDegrees g := (List.mem_filter.mp hp).1
    have hp2 : p.2 = 0 := by
      have hb := (List.mem_filter.mp hp).2
      simpa [beq_iff_eq] using hb
    constructor
    · unfold degOf
      rw [lookup_eq_of_mem hkeys
        (show (p.1, p.2) ∈ inDegrees g from by simpa using hpmem)]
      simpa using hp2
    · exact List.mem_map_of_mem Prod.fst hpmem
  refine ⟨?_, ?_, ?_, ?_, ?_, ?_, ?_, ?_, ?_, ?_⟩
  · intro n
    rw [degOf_inDegrees_preds g hwf n]
    simp
  · exact List.nodup_nil
  · have hsub : List.Sublist
        (((inDegrees g).filter (fun p => p.2 == 0)).map Prod.fst)
        ((inDegrees g).map Prod.fst) := (List.filter_sublist _).map Prod.fst
    exact List.Nodup.sublist hsub hkeys
  · intro x hx
    exact List.not_mem_nil x
  · intro x hx
    exact (hdeg0 x hx).2
  · intro x hx
    exact absurd hx (List.not_mem_nil x)
  · intro n hn
    rcases hn with hn | hn
    · exact le_of_eq (hdeg0 n hn).1
    · exact absurd hn (List.not_mem_nil n)
  · intro n hkn hnp
    left
    obtain ⟨p, hp, heq⟩ := List.mem_map.mp hkn
    subst heq
    have hdeg : degOf (inDegrees g) p.1 = p.2 := by
      unfold degOf
      rw [lookup_eq_of_mem hkeys
        (show (p.1, p.2) ∈ inDegrees g from by simpa using hp)]
      rfl
    have hge : 0 ≤ degOf (inDegrees g) p.1 := by
      rw [degOf_inDegrees_preds g hwf]
      exact Int.natCast_nonneg _
    have hp2 : p.2 = 0 := by omega
    refine List.mem_map_of_mem Prod.fst (List.mem_filter.mpr ⟨hp, ?_⟩)
    simp [hp2]
  · intro n hn
    have h0 : degOf (inDegrees g) n = 0 := (hdeg0 n hn).1
    rw [degOf_inDegrees_preds g hwf] at h0
    have hc : (preds g n).card = 0 := by exact_mod_cast h0
    rw [Finset.card_eq_zero] at hc
    rw [hc]
    exact Finset.empty_subset _
  · intro v hv
    exact absurd hv (List.not_mem_nil v)

lemma get_build_order_inv (g : AdjList) (hwf : WFAdj g) :
    ∃ degs2, KInv g degs2 [] (get_build_order g) := by
  have h := kahnLoop_spec g hwf
    (kahnMeasure (inDegrees g)
      (((inDegrees g).filter (fun p => p.2 == 0)).map Prod.fst) + 1)
    (inDegrees g) (((inDegrees g).filter (fun p => p.2 == 0)).map Prod.fst) []
    (kahn_init g hwf) (by omega)
  exact h

lemma cycAt_pred {g : AdjList} {n : String} (h : CycAt g n) :
    ∃ u, Edge g u n ∧ CycAt g u := by
  obtain ⟨v, he, hr⟩ := h
  rcases Relation.ReflTransGen.cases_tail hr with heq | ⟨u, hru, hun⟩
  · subst heq
    exact ⟨n, he, n, he, Relation.ReflTransGen.refl⟩
  · exact ⟨u, hun, n, hun, Relation.ReflTransGen.head he hru⟩

lemma cycle_of_pred_closed (g : AdjList) (L : Finset String) (hne : L.Nonempty)
    (hstep : ∀ n ∈ L, ∃ u ∈ L, Edge g u n) : ∃ m, CycAt g m := by
  have hex : ∀ n, ∃ u, n ∈ L → u ∈ L ∧ Edge g u n := by
    intro n
    by_cases h : n ∈ L
    · obtain ⟨u, hu, he⟩ := hstep n h
      exact ⟨u, fun _ => ⟨hu, he⟩⟩
    · exact ⟨n, fun hc => absurd hc h⟩
  choose f2 hf2 using hex
  obtain ⟨n0, hn0⟩ := hne
  have hmem : ∀ a : Nat, f2^[a] n0 ∈ L := by
    intro a
    induction a with
    | zero => simpa using hn0
    | succ k ihk =>
      rw [Function.iterate_succ_apply']
      exact (hf2 _ ihk).1
  have hreach : ∀ (d a : Nat),
      Relation.ReflTransGen (Edge g) (f2^[a + d] n0) (f2^[a] n0) := by
    intro d
    induction d with
    | zero => intro a; exact Relation.ReflTransGen.refl
    | succ k ihk =>
      intro a
      have h1 : f2^[a + (k + 1)] n0 = f2 (f2^[a + k] n0) := by
        rw [show a + (k + 1) = (a + k) + 1 from rfl, Function.iterate_succ_apply']
      rw [h1]
      exact Relation.ReflTransGen.head (hf2 _ (hmem (a + k))).2 (ihk a)
  have hmaps : ∀ a ∈ Finset.range (L.card + 1), f2^[a] n0 ∈ L := fun a _ => hmem a
  have hcard : L.card < (Finset.range (L.card + 1)).card := by
    rw [Finset.card_range]
    omega
  obtain ⟨a, ha, b, hb, hab, heq⟩ :=
    Finset.exists_ne_map_eq_of_card_lt_of_maps_to hcard hmaps
  suffices hs : ∀ a b : Nat, a < b → f2^[a] n0 = f2^[b] n0 → ∃ m, CycAt g m by
    rcases Nat.lt_or_ge a b with hlt | hge
    · exact hs a b hlt heq
    · exact hs b a (by omega) heq.symm
  intro a2 b2 hlt hfeq
  refine ⟨f2 (f2^[a2] n0), f2^[a2] n0, (hf2 _ (hmem a2)).2, ?_⟩
  have h1 : f2 (f2^[a2] n0) = f2^[a2 + 1] n0 :=
    (Function.iterate_succ_apply' f2 a2 n0).symm
  have h2 : f2^[a2] n0 = f2^[(a2 + 1) + (b2 - a2 - 1)] n0 := by
    rw [hfeq]
    congr 1
    omega
  rw [h1, h2]
  exact hreach (b2 - a2 - 1) (a2 + 1)

lemma kinv_excludes_cycles {g : AdjList} {degs : DegMap} {final : List String}
    (inv : KInv g degs [] final) : ∀ n, CycAt g n → n ∉ final := by
  have hs : ∀ k : Nat, ∀ n, n ∈ final → final.indexOf n < k → ¬ CycAt g n := by
    intro k
    induction k with
    | zero => intro n _ h; exact absurd h (Nat.not_lt_zero _)
    | succ k ihk =>
      intro n hmem hidx hc
      obtain ⟨u, hedge, hcu⟩ := cycAt_pred hc
      obtain ⟨humem, hlt⟩ := inv.resOrder n hmem u (mem_preds.mpr hedge)
      exact ihk u humem (by omega) hcu
  intro n hc hmem
  exact hs (final.indexOf n + 1) n hmem (by omega) hc

lemma kinv_complete {g : AdjList} {degs : DegMap} {final : List String}
    (hac : Acyclic g) (inv : KInv g degs [] final) :
    ∀ n ∈ kahnNodes g, n ∈ final := by
  by_contra hcon
  push_neg at hcon
  obtain ⟨n0, hn0k, hn0f⟩ := hcon
  have hstep : ∀ n ∈ (kahnNodes g).toFinset \ final.toFinset,
      ∃ u ∈ (kahnNodes g).toFinset \ final.toFinset, Edge g u n := by
    intro n hn
    obtain ⟨hnk, hnf⟩ := Finset.mem_sdiff.mp hn
    have hnk2 : n ∈ kahnNodes g := List.mem_toFinset.mp hnk
    have hnf2 : n ∉ final := fun hc => hnf (List.mem_toFinset.mpr hc)
    have hpos : 0 < degOf degs n := by
      by_contra hnp
      push_neg at hnp
      rcases inv.nonposSeen n hnk2 hnp with hq | hr
      · exact absurd hq (List.not_mem_nil n)
      · exact hnf2 hr
    have hvn := inv.val n
    have hle : (preds g n ∩ final.toFinset).card ≤ (preds g n).card :=
      Finset.card_le_card Finset.inter_subset_left
    have hlt : (preds g n ∩ final.toFinset).card < (preds g n).card := by omega
    have hss : ¬ (preds g n ⊆ final.toFinset) := by
      intro hsub
      have he2 : preds g n ∩ final.toFinset = preds g n :=
        Finset.inter_eq_left.mpr hsub
      rw [he2] at hlt
      exact lt_irrefl _ hlt
    obtain ⟨u, hu, huf⟩ := Finset.not_subset.mp hss
    refine ⟨u, Finset.mem_sdiff.mpr ⟨?_, huf⟩, mem_preds.mp hu⟩
    exact List.mem_toFinset.mpr (key_in_kahnNodes (edge_src_key (mem_preds.mp hu)))
  have hne : ((kahnNodes g).toFinset \ final.toFinset).Nonempty :=
    ⟨n0, Finset.mem_sdiff.mpr ⟨List.mem_toFinset.mpr hn0k,
      fun hc => hn0f (List.mem_toFinset.mp hc)⟩⟩
  obtain ⟨m, hm⟩ := cycle_of_pred_closed g _ hne hstep
  exact hac m hm

/-- C3: when the dependency graph is acyclic, `get_build_order` lists every
key of the forward mapping exactly once; when the graph has a cycle, the
output is a strict subset of the graph's node set that excludes every node
lying on a cycle. -/
theorem c3_build_order (g : AdjList) (hwf : WFAdj g) :
    (Acyclic g → ∀ k ∈ g.map Prod.fst, (get_build_order g).count k = 1) ∧
      (¬ Acyclic g →
        (get_build_order g).toFinset ⊂ (kahnNodes g).toFinset ∧
          ∀ n, CycAt g n → n ∉ get_build_order g) := by
  obtain ⟨degs2, inv⟩ := get_build_order_inv g hwf
  constructor
  · intro hac k hk
    have hmem : k ∈ get_build_order g :=
      kinv_complete hac inv k (key_in_kahnNodes hk)
    exact List.count_eq_one_of_mem inv.resNodup hmem
  · intro hnac
    have hexc : ∀ n, CycAt g n → n ∉ get_build_order g := kinv_excludes_cycles inv
    refine ⟨?_, hexc⟩
    have hsub : (get_build_order g).toFinset ⊆ (kahnNodes g).toFinset := by
      intro x hx
      exact List.mem_toFinset.mpr (inv.resSub x (List.mem_toFinset.mp hx))
    rw [Finset.ssubset_iff_of_subset hsub]
    have hex : ∃ n, CycAt g n := by
      by_contra hc
      push_neg at hc
      exact hnac hc
    obtain ⟨n, hn⟩ := hex
    refine ⟨n, ?_, fun hc => hexc n hn (List.mem_toFinset.mp hc)⟩
    obtain ⟨v, he, -⟩ := hn
    exact List.mem_toFinset.mpr (key_in_kahnNodes (edge_src_key he))

/-- Witness for C3: on the acyclic graph `gAcy` every key appears exactly
once in the build order; on the cyclic graph `gCyc` the order is a strict
subset of the node set missing every cycle node. -/
theorem c3_build_order_witness :
    (∀ k ∈ gAcy.map Prod.fst, (get_build_order gAcy).count k = 1) ∧
      ((get_build_order gCyc).toFinset ⊂ (kahnNodes gCyc).toFinset ∧
        ∀ n, CycAt gCyc n → n ∉ get_build_order gCyc) :=
  ⟨(c3_build_order gAcy ⟨by decide, by decide⟩).1
      (fcd_none_acyclic gAcy (by decide)),
    (c3_build_order gCyc ⟨by decide, by decide⟩).2
      (goodCycle_not_acyclic (fcd_some_good gCyc ["a.c", "b.c", "a.c"] (by decide)))⟩

/-- C9: on an acyclic graph every stored edge (u, v) puts the including
file u strictly before its include target v in the build order, so a
depending file precedes the headers it includes. -/
theorem c9_build_order_edge_order (g : AdjList) (hwf : WFAdj g)
    (hac : Acyclic g) (u v : String) (h : Edge g u v) :
    u ∈ get_build_order g ∧ v ∈ get_build_order g ∧
      (get_build_order g).indexOf u < (get_build_order g).indexOf v := by
  obtain ⟨degs2, inv⟩ := get_build_order_inv g hwf
  have hv : v ∈ get_build_order g :=
    kinv_complete hac inv v (target_in_kahnNodes h)
  obtain ⟨humem, hlt⟩ := inv.resOrder v hv u (mem_preds.mpr h)
  exact ⟨humem, hv, hlt⟩

/-- Witness for C9: in `gAcy`, the edge from `a.c` to `b.h` puts `a.c`
strictly before `b.h` in the build order. -/
theorem c9_build_order_edge_order_witness :
    "a.c" ∈ get_build_order gAcy ∧ "b.h" ∈ get_build_order gAcy ∧
      (get_build_order gAcy).indexOf "a.c" < (get_build_order gAcy).indexOf "b.h" :=
  c9_build_order_edge_order gAcy ⟨by decide, by decide⟩
    (fcd_none_acyclic gAcy (by decide)) "a.c" "b.h" (by decide)

lemma quote_split : ∀ (a a2 b b2 : List Char), '"' ∉ a → '"' ∉ a2 →
    a ++ '"' :: b = a2 ++ '"' :: b2 → a = a2 ∧ b = b2 := by
  intro a
  induction a with
  | nil =>
    intro a2 b b2 _ ha2 h
    cases a2 with
    | nil =>
      simp only [List.nil_append] at h
      injection h with h1 h2
      exact ⟨rfl, h2⟩
    | cons c t =>
      simp only [List.nil_append, List.cons_append] at h
      injection h with h1 h2
      exact absurd (List.mem_cons.mpr (Or.inl h1)) ha2
  | cons c t ih =>
    intro a2 b b2 ha ha2 h
    cases a2 with
    | nil =>
      simp only [List.nil_append, List.cons_append] at h
      injection h with h1 h2
      exact absurd (List.mem_cons.mpr (Or.inl h1.symm)) ha
    | cons c2 t2 =>
      simp only [List.cons_append] at h
      injection h with h1 h2
      obtain ⟨he, hb⟩ := ih t2 b b2 (fun hc => ha (List.mem_cons_of_mem c hc))
        (fun hc => ha2 (List.mem_cons_of_mem c2 hc)) h2
      exact ⟨by rw [h1, he], hb⟩

lemma dotNode_data (p : String) : (dotNode p).data =
    ' ' :: ' ' :: '"' :: (p.data ++ '"' ::
      (" [label=\"".data ++ ((baseName p).data ++ ("\" fillcolor=\"".data ++
        ((if strEndsWith p ".h" then "lightblue" else "lightgreen").data ++
          "\" style=filled];".data))))) := by
  show ("  \"" ++ p ++ "\" [label=\"" ++ baseName p ++ "\" fillcolor=\"" ++
      (if strEndsWith p ".h" then "lightblue" else "lightgreen") ++
      "\" style=filled];").data = _
  rw [String.data_append, String.data_append, String.data_append,
    String.data_append, String.data_append, String.data_append]
  simp only [List.append_assoc]
  rfl

lemma dotEdge_data (u v : String) : (dotEdge u v).data =
    ' ' :: ' ' :: '"' :: (u.data ++ '"' :: ' ' :: '-' :: '>' :: ' ' :: '"' ::
      (v.data ++ ['"', ';'])) := by
  show ("  \"" ++ u ++ "\" -> \"" ++ v ++ "\";").data = _
  rw [String.data_append, String.data_append, String.data_append,
    String.data_append]
  simp only [List.append_assoc]
  rfl

lemma baseName_quote_free {p : String} (hp : '"' ∉ p.data) :
    '"' ∉ (baseName p).data := by
  intro hc
  apply hp
  have hc2 : '"' ∈ (p.data.reverse.takeWhile (fun c => c ≠ '/')).reverse := hc
  rw [List.mem_reverse] at hc2
  have h2 := (List.takeWhile_sublist _).subset hc2
  rw [List.mem_reverse] at h2
  exact h2

lemma count_quote_free {l : List Char} (h : '"' ∉ l) (r : List Char) :
    (l ++ r).count '"' = r.count '"' := by
  rw [List.count_append, List.count_eq_zero.mpr h, Nat.zero_add]

lemma count_quote_dotNode {p : String} (hp : '"' ∉ p.data) :
    (dotNode p).data.count '"' = 6 := by
  rw [dotNode_data]
  rw [List.count_cons_of_ne (by decide), List.count_cons_of_ne (by decide),
    List.count_cons_self, count_quote_free hp, List.count_cons_self,
    List.count_append, List.count_append, List.count_append, List.count_append,
    List.count_eq_zero.mpr (baseName_quote_free hp)]
  have hcol : (if strEndsWith p ".h" then "lightblue" else "lightgreen").data.count
      '"' = 0 := by
    split <;> decide
  rw [hcol]
  decide

lemma count_quote_dotEdge {u v : String} (hu : '"' ∉ u.data) (hv : '"' ∉ v.data) :
    (dotEdge u v).data.count '"' = 4 := by
  rw [dotEdge_data]
  rw [List.count_cons_of_ne (by decide), List.count_cons_of_ne (by decide),
    List.count_cons_self, count_quote_free hu, List.count_cons_self,
    List.count_cons_of_ne (by decide), List.count_cons_of_ne (by decide),
    List.count_cons_of_ne (by decide), List.count_cons_of_ne (by decide),
    List.count_cons_self, count_quote_free hv]
  decide

lemma dotNode_inj {p p2 : String} (hp : '"' ∉ p.data) (hp2 : '"' ∉ p2.data)
    (h : dotNode p = dotNode p2) : p = p2 := by
  have hd := congrArg String.data h
  rw [dotNode_data, dotNode_data] at hd
  injection hd with h1 hd
  injection hd with h2 hd
  injection hd with h3 hd
  exact String.ext (quote_split p.data p2.data _ _ hp hp2 hd).1

lemma dotEdge_inj {u v u2 v2 : String} (hu : '"' ∉ u.data) (hv : '"' ∉ v.data)
    (hu2 : '"' ∉ u2.data) (hv2 : '"' ∉ v2.data)
    (h : dotEdge u v = dotEdge u2 v2) : u = u2 ∧ v = v2 := by
  have hd := congrArg String.data h
  rw [dotEdge_data, dotEdge_data] at hd
  injection hd with h1 hd
  injection hd with h2 hd
  injection hd with h3 hd
  obtain ⟨hueq, htail⟩ := quote_split u.data u2.data _ _ hu hu2 hd
  injection htail with h4 htail
  injection htail with h5 htail
  injection htail with h6 htail
  injection htail with h7 htail
  injection htail with h8 htail
  obtain ⟨hveq, -⟩ := quote_split v.data v2.data [';'] [';'] hv hv2 htail
  exact ⟨String.ext hueq, String.ext hveq⟩

lemma dotNode_notin_edges {p : String} (hp : '"' ∉ p.data) {d : AdjList}
    (hqd : ∀ kv ∈ d, '"' ∉ kv.1.data ∧ ∀ x ∈ kv.2, '"' ∉ x.data) :
    dotNode p ∉ d.flatMap (fun kv => kv.2.map (fun dep => dotEdge kv.1 dep)) := by
  intro hmem
  obtain ⟨kv, hkv, hmem2⟩ := List.mem_flatMap.mp hmem
  obtain ⟨x, hx, heq⟩ := List.mem_map.mp hmem2
  have h1 := count_quote_dotEdge (hqd kv hkv).1 ((hqd kv hkv).2 x hx)
  have h2 := count_quote_dotNode hp
  rw [heq] at h1
  omega

lemma count_map_dotNode (p : String) (hp : '"' ∉ p.data) :
    ∀ (files : List (String × String)), (∀ kv ∈ files, '"' ∉ kv.2.data) →
    (files.map (fun kv => dotNode kv.2)).count (dotNode p) =
      (files.map Prod.snd).count p := by
  intro files
  induction files with
  | nil => intro _; rfl
  | cons kv t ih =>
    intro hq
    rw [List.map_cons, List.map_cons]
    by_cases hpk : p = kv.2
    · rw [← hpk, List.count_cons_self, List.count_cons_self,
        ih (fun x hx => hq x (List.mem_cons_of_mem kv hx))]
    · have h1 : dotNode p ≠ dotNode kv.2 :=
        fun h => hpk (dotNode_inj hp (hq kv (List.mem_cons_self kv t)) h)
      rw [List.count_cons_of_ne h1, List.count_cons_of_ne hpk,
        ih (fun x hx => hq x (List.mem_cons_of_mem kv hx))]

lemma count_dotNode_output (files : List (String × String)) (d : AdjList)
    (hqf : ∀ kv ∈ files, '"' ∉ kv.2.data)
    (hqd : ∀ kv ∈ d, '"' ∉ kv.1.data ∧ ∀ x ∈ kv.2, '"' ∉ x.data)
    (p : String) (hp : '"' ∉ p.data) :
    (generate_dot_graph files d).count (dotNode p) =
      (files.map Prod.snd).count p := by
  unfold generate_dot_graph
  rw [List.count_append, List.count_append, List.count_append]
  have hA : (["digraph dependencies \x7b", "  rankdir=TB;",
      "  node [shape=box];"]).count (dotNode p) = 0 := by
    apply List.count_eq_zero.mpr
    intro hmem
    have h6 := count_quote_dotNode hp
    rcases List.mem_cons.mp hmem with heq | hmem2
    · rw [heq] at h6
      exact absurd h6 (by decide)
    rcases List.mem_cons.mp hmem2 with heq | hmem3
    · rw [heq] at h6
      exact absurd h6 (by decide)
    rcases List.mem_cons.mp hmem3 with heq | hmem4
    · rw [heq] at h6
      exact absurd h6 (by decide)
    · exact absurd hmem4 (List.not_mem_nil _)
  have hD : (["\x7d"]).count (dotNode p) = 0 := by
    apply List.count_eq_zero.mpr
    intro hmem
    rcases List.mem_cons.mp hmem with heq | hmem2
    · have h6 := count_quote_dotNode hp
      rw [heq] at h6
      exact absurd h6 (by decide)
    · exact absurd hmem2 (List.not_mem_nil _)
  have hC : (d.flatMap (fun kv => kv.2.map (fun dep =>
      dotEdge kv.1 dep))).count (dotNode p) = 0 :=
    List.count_eq_zero.mpr (dotNode_notin_edges hp hqd)
  rw [hA, hC, hD, count_map_dotNode p hp files hqf]
  omega

lemma count_map_dotEdge (a w : String) (ha : '"' ∉ a.data) (hw : '"' ∉ w.data) :
    ∀ (l : List String), (∀ x ∈ l, '"' ∉ x.data) →
    (l.map (fun dep => dotEdge a dep)).count (dotEdge a w) = l.count w := by
  intro l
  induction l with
  | nil => intro _; rfl
  | cons x t ih =>
    intro hq
    rw [List.map_cons]
    by_cases hxw : w = x
    · rw [← hxw, List.count_cons_self, List.count_cons_self,
        ih (fun y hy => hq y (List.mem_cons_of_mem x hy))]
    · have h1 : dotEdge a w ≠ dotEdge a x :=
        fun h => hxw (dotEdge_inj ha hw ha (hq x (List.mem_cons_self x t)) h).2
      rw [List.count_cons_of_ne h1, List.count_cons_of_ne hxw,
        ih (fun y hy => hq y (List.mem_cons_of_mem x hy))]

lemma count_dotEdge_edges (u v : String) (hu : '"' ∉ u.data)
    (hv : '"' ∉ v.data) :
    ∀ (d : AdjList), (d.map Prod.fst).Nodup → (∀ kv ∈ d, kv.2.Nodup) →
    (∀ kv ∈ d, '"' ∉ kv.1.data ∧ ∀ x ∈ kv.2, '"' ∉ x.data) →
    (d.flatMap (fun kv => kv.2.map (fun dep =>
        dotEdge kv.1 dep))).count (dotEdge u v) =
      if v ∈ lookupD d u then 1 else 0 := by
  intro d
  induction d with
  | nil =>
    intro _ _ _
    have h0 : lookupD ([] : AdjList) u = [] := rfl
    rw [h0, if_neg (List.not_mem_nil v)]
    rfl
  | cons kv t ih =>
    intro hnd hsets hq
    obtain ⟨k, vs⟩ := kv
    rw [List.flatMap_cons, List.count_append]
    rw [List.map_cons] at hnd
    have hndt : (t.map Prod.fst).Nodup := (List.nodup_cons.mp hnd).2
    have hknotin : (k, vs).1 ∉ t.map Prod.fst := (List.nodup_cons.mp hnd).1
    by_cases hku : k = u
    · subst hku
      have hinner : (vs.map (fun dep => dotEdge k dep)).count (dotEdge k v) =
          vs.count v :=
        count_map_dotEdge k v (hq (k, vs) (List.mem_cons_self _ t)).1 hv vs
          (fun x hx => (hq (k, vs) (List.mem_cons_self _ t)).2 x hx)
      have htail : (t.flatMap (fun kv => kv.2.map (fun dep =>
          dotEdge kv.1 dep))).count (dotEdge k v) = 0 := by
        apply List.count_eq_zero.mpr
        intro hmem
        obtain ⟨kv2, hkv2, hmem2⟩ := List.mem_flatMap.mp hmem
        obtain ⟨x, hx, heq⟩ := List.mem_map.mp hmem2
        have hfst : kv2.1 ∈ t.map Prod.fst := List.mem_map_of_mem Prod.fst hkv2
        rw [(dotEdge_inj (hq kv2 (List.mem_cons_of_mem _ hkv2)).1
          ((hq kv2 (List.mem_cons_of_mem _ hkv2)).2 x hx)
          (hq (k, vs) (List.mem_cons_self _ t)).1 hv heq).1] at hfst
        exact hknotin hfst
      rw [hinner, htail, Nat.add_zero, lookupD_cons_self k vs t]
      by_cases hvm : v ∈ vs
      · rw [if_pos hvm,
          List.count_eq_one_of_mem (hsets (k, vs) (List.mem_cons_self _ t)) hvm]
      · rw [if_neg hvm, List.count_eq_zero.mpr hvm]
    · have hinner : (vs.map (fun dep => dotEdge k dep)).count (dotEdge u v) =
          0 := by
        apply List.count_eq_zero.mpr
        intro hmem
        obtain ⟨x, hx, heq⟩ := List.mem_map.mp hmem
        exact hku (dotEdge_inj (hq (k, vs) (List.mem_cons_self _ t)).1
          ((hq (k, vs) (List.mem_cons_self _ t)).2 x hx) hu hv heq).1
      rw [hinner, Nat.zero_add,
        ih hndt (fun kv2 h2 => hsets kv2 (List.mem_cons_of_mem _ h2))
          (fun kv2 h2 => hq kv2 (List.mem_cons_of_mem _ h2)),
        lookupD_cons_ne u k vs t (fun h => hku h.symm)]

lemma dotEdge_notin_nodes {u v : String} (hu : '"' ∉ u.data)
    (hv : '"' ∉ v.data) {files : List (String × String)}
    (hqf : ∀ kv ∈ files, '"' ∉ kv.2.data) :
    dotEdge u v ∉ files.map (fun kv => dotNode kv.2) := by
  intro hmem
  obtain ⟨kv, hkv, heq⟩ := List.mem_map.mp hmem
  have h1 := count_quote_dotNode (hqf kv hkv)
  have h2 := count_quote_dotEdge hu hv
  rw [heq] at h1
  omega

/-- C8: the exported text is the digraph block consisting of the prelude,
one node statement per discovered file and one edge statement per stored
edge, followed by the closing brace; counting statements in the whole
output, the node statement for a path occurs exactly as often as that path
occurs among the discovered files, and the edge statement for a pair occurs
exactly once when the pair is a forward-mapping edge and never otherwise. -/
theorem c8_dot_export (files : List (String × String)) (d : AdjList)
    (hwf : WFAdj d)
    (hqf : ∀ kv ∈ files, '"' ∉ kv.2.data)
    (hqd : ∀ kv ∈ d, '"' ∉ kv.1.data ∧ ∀ x ∈ kv.2, '"' ∉ x.data) :
    (generate_dot_graph files d =
      ["digraph dependencies \x7b", "  rankdir=TB;", "  node [shape=box];"] ++
        files.map (fun kv => dotNode kv.2) ++
        d.flatMap (fun kv => kv.2.map (fun dep => dotEdge kv.1 dep)) ++
        ["\x7d"]) ∧
    (∀ p : String, '"' ∉ p.data →
      (generate_dot_graph files d).count (dotNode p) =
        (files.map Prod.snd).count p) ∧
    (∀ u v : String, '"' ∉ u.data → '"' ∉ v.data →
      (generate_dot_graph files d).count (dotEdge u v) =
        if Edge d u v then 1 else 0) := by
  refine ⟨rfl, ?_, ?_⟩
  · intro p hp
    exact count_dotNode_output files d hqf hqd p hp
  · intro u v hu hv
    unfold generate_dot_graph
    rw [List.count_append, List.count_append, List.count_append]
    have hA : (["digraph dependencies \x7b", "  rankdir=TB;",
        "  node [shape=box];"]).count (dotEdge u v) = 0 := by
      apply List.count_eq_zero.mpr
      intro hmem
      have h4 := count_quote_dotEdge hu hv
      rcases List.mem_cons.mp hmem with heq | hmem2
      · rw [heq] at h4
        exact absurd h4 (by decide)
      rcases List.mem_cons.mp hmem2 with heq | hmem3
      · rw [heq] at h4
        exact absurd h4 (by decide)
      rcases List.mem_cons.mp hmem3 with heq | hmem4
      · rw [heq] at h4
        exact absurd h4 (by decide)
      · exact absurd hmem4 (List.not_mem_nil _)
    have hD : (["\x7d"]).count (dotEdge u v) = 0 := by
      apply List.count_eq_zero.mpr
      intro hmem
      rcases List.mem_cons.mp hmem with heq | hmem2
      · have h4 := count_quote_dotEdge hu hv
        rw [heq] at h4
        exact absurd h4 (by decide)
      · exact absurd hmem2 (List.not_mem_nil _)
    have hB : (files.map (fun kv => dotNode kv.2)).count (dotEdge u v) = 0 :=
      List.count_eq_zero.mpr (dotEdge_notin_nodes hu hv hqf)
    rw [hA, hB, hD, count_dotEdge_edges u v hu hv d hwf.1 hwf.2 hqd]
    by_cases he : v ∈ lookupD d u
    · rw [if_pos he, if_pos (show Edge d u v from he)]
    · rw [if_neg he, if_neg (show ¬ Edge d u v from he)]

/-- Witness for C8: on a two-file discovery and the graph `gAcy`, the node
statement for `a.c` and the edge statement for the `a.c` to `b.h` edge each
occur exactly once in the exported text. -/
theorem c8_dot_export_witness :
    (generate_dot_graph [("a.c", "a.c"), ("b.h", "b.h")] gAcy).count
        (dotNode "a.c") = 1 ∧
      (generate_dot_graph [("a.c", "a.c"), ("b.h", "b.h")] gAcy).count
        (dotEdge "a.c" "b.h") = 1 :=
  ⟨((c8_dot_export [("a.c", "a.c"), ("b.h", "b.h")] gAcy ⟨by decide, by decide⟩
        (by decide) (by decide)).2.1 "a.c" (by decide)).trans (by decide),
    ((c8_dot_export [("a.c", "a.c"), ("b.h", "b.h")] gAcy ⟨by decide, by decide⟩
        (by decide) (by decide)).2.2 "a.c" "b.h" (by decide) (by decide)).trans
      (by decide)⟩

end CheckDeps
